import Mathlib

/-!
# Verification of the `simon` PEG engine and lexer

A shallow embedding of `simon/grammar.py` (packrat parsing-expression
engine) and `simon/lexer.py` (first-match tokenizer), with theorems
checking the natural-language specification against the code.

Modelling choices, all driven by the Python source:

* Text is a `List Char` (a Python `str` is a sequence of code points);
  `pySlice t a b` embeds `t[a:b]`.
* Python object identity (`id(self)`), used as half of the memoization
  key, is embedded as an explicit `id : Nat` carried by every
  `Expr`/`Rule`/`Terminal` node: two occurrences share an `id` exactly
  when the Python program has them as one object.
* `Node` objects are mutable in the source (`Rule._match` assigns
  `result.type_`), and cache entries alias them.  The embedding therefore
  allocates nodes in an explicit heap (`ParseState.heap`, a node is a
  `Nat` index) so aliasing and mutation are observable, exactly as in
  Python.
* The regular-expression collaborator (`re.compile(p).match(text, pos)`)
  is opaque in the source; it is embedded as a parameter
  `R : RegexM` returning the match end, with its documented guarantees
  (`pos ≤ end ≤ len`) taken as hypotheses where needed.  `re.escape`
  plus `match` on a literal is embedded directly as `lit_match`.
* Matching uses unbounded recursion in Python (a left-recursive grammar
  overflows the stack); the interpreter `run` is indexed by fuel, with
  `none` meaning the computation does not finish within that fuel.
  Divergence is `∀ fuel, run ... = none`.
* A ghost log `ParseState.calls` records each invocation of a
  variant-specific matcher (`_match`); it affects nothing else and
  serves to state the spec's "counts invocations" property.
-/

namespace Simon

/-- Python slicing `t[a:b]` on a sequence of characters. -/
def pySlice (t : List Char) (a b : Nat) : List Char :=
  (t.drop a).take (b - a)

/-- Association-list lookup by decidable key equality (Python `dict`
lookup; insertion is modelled by consing, so the newest binding wins,
matching `dict` assignment semantics for lookups). -/
def assoc {α β : Type} [DecidableEq α] : List (α × β) → α → Option β
  | [], _ => none
  | kv :: rest, k => if kv.1 = k then some kv.2 else assoc rest k

/-- A character is cased (embeds Python's notion over ASCII letters,
the only characters appearing in the repository's rule names). -/
def isCased (c : Char) : Bool :=
  (('a' ≤ c) && (c ≤ 'z')) || (('A' ≤ c) && (c ≤ 'Z'))

/-- Python `str.isupper()`: at least one cased character and every
cased character uppercase. -/
def pyIsUpper (s : String) : Bool :=
  s.toList.any isCased && s.toList.all (fun c => !isCased c || (('A' ≤ c) && (c ≤ 'Z')))

/-- `re.compile(re.escape(lit)).match(text, pos)`: an anchored literal
prefix match, returning the match end on success.  Used by
`Literal._match` and `Terminal._match`. -/
def lit_match (lit text : List Char) (pos : Nat) : Option Nat :=
  if pos + lit.length ≤ text.length ∧ pySlice text pos (pos + lit.length) = lit then
    some (pos + lit.length)
  else
    none

/-- The opaque regular-expression collaborator: pattern, text, position
to optional match end (`re.compile(pat).match(text, pos)` and `.end(0)`).
`group(0)` is by the `re` contract the slice from position to end. -/
def RegexM : Type := String → List Char → Nat → Option Nat

/-- Soundness facts the `re` module guarantees for an anchored match:
the end is between the query position and the text length. -/
def RegexWF (R : RegexM) : Prop :=
  ∀ pat text pos e, R pat text pos = some e → pos ≤ e ∧ e ≤ text.length

/-- A child of a parse-tree node: either a raw matched substring
(terminal matchers) or a reference to another heap node. -/
inductive Child : Type where
  | str (s : List Char)
  | ref (nid : Nat)
deriving DecidableEq, Repr

/-- `grammar.py`'s `Node`: children, `start`, `end` (here `stop`, since
`end` is reserved), and `type_` (default `""`), the tag a wrapping
`Rule` assigns. -/
structure Node : Type where
  children : List Child
  start : Nat
  stop : Nat
  type_ : String
deriving DecidableEq, Repr

/-- The parsing-expression variants of `grammar.py` (`Expression`
subclasses).  Each carries its Python object identity as `id`. -/
inductive Expr : Type where
  | Literal (id : Nat) (literal : List Char)
  | RegEx (id : Nat) (pattern : String)
  | Name (id : Nat) (name : String)
  | Alts (id : Nat) (alts : List Expr)
  | Sequence (id : Nat) (expressions : List Expr)
  | Optional (id : Nat) (optional : Expr)
  | Some (id : Nat) (expression : Expr)
  | Many (id : Nat) (expression : Expr)
  | PositiveLookahead (id : Nat) (expression : Expr)
  | NegativeLookahead (id : Nat) (expression : Expr)

/-- The object identity of an expression. -/
def Expr.eid : Expr → Nat
  | .Literal i _ => i
  | .RegEx i _ => i
  | .Name i _ => i
  | .Alts i _ => i
  | .Sequence i _ => i
  | .Optional i _ => i
  | .Some i _ => i
  | .Many i _ => i
  | .PositiveLookahead i _ => i
  | .NegativeLookahead i _ => i

/-- `grammar.py`'s `Rule`: a name and a right-hand side (annotated
`Alts` in the source; only its `match` method is used, so any
expression is accepted here). -/
structure Rule : Type where
  id : Nat
  name : String
  rhs : Expr

/-- `grammar.py`'s `Terminal`: a name and a literal term. -/
structure Terminal : Type where
  id : Nat
  name : String
  term : List Char
deriving DecidableEq, Repr

/-- `grammar.py`'s `Grammar`: the `rules` and `terminals` tables
(Python dicts, embedded as association lists). -/
structure Grammar : Type where
  rules : List (String × Rule)
  terminals : List (String × Terminal)

/-- The only exception `grammar.py` raises during matching: the
`KeyError` from a failed `dict` lookup in `Grammar.__getitem__`.  It
carries the missing key and nothing else. -/
inductive Err : Type where
  | keyError (name : String)
deriving DecidableEq, Repr

/-- The result of `Grammar.__getitem__`. -/
inductive Matchable : Type where
  | rule (r : Rule)
  | term (t : Terminal)

/-- `Grammar.__getitem__`: uppercase names consult the `terminals`
table, all other names the `rules` table; a missing key raises
`KeyError(name)`. -/
def Grammar.getItem (g : Grammar) (name : String) : Except Err Matchable :=
  if pyIsUpper name then
    match assoc g.terminals name with
    | some t => .ok (.term t)
    | none => .error (.keyError name)
  else
    match assoc g.rules name with
    | some r => .ok (.rule r)
    | none => .error (.keyError name)

/-- The mutable state threaded through one parse: the node heap (node
identity is the index), the memoization `cache` keyed by
`(object id, position)`, and the ghost log of variant-matcher
invocations. -/
structure ParseState : Type where
  heap : List Node
  cache : List ((Nat × Nat) × Option Nat)
  calls : List (Nat × Nat)
deriving DecidableEq, Repr

/-- The fresh state a top-level parse starts from. -/
def emptyState : ParseState := ⟨[], [], []⟩

/-- Read a heap node (total; the default is never reached on valid
indices). -/
def hget (s : ParseState) (nid : Nat) : Node :=
  s.heap.getD nid ⟨[], 0, 0, ""⟩

/-- Allocate a fresh node with empty tag (`type_` defaults to `""` in
the source), returning its identity. -/
def alloc (s : ParseState) (children : List Child) (start stop : Nat) :
    ParseState × Nat :=
  (⟨s.heap ++ [⟨children, start, stop, ""⟩], s.cache, s.calls⟩, s.heap.length)

/-- `result.type_ = name`: mutate one heap node's tag in place. -/
def setTag (s : ParseState) (nid : Nat) (tag : String) : ParseState :=
  ⟨s.heap.set nid ⟨(hget s nid).children, (hget s nid).start, (hget s nid).stop, tag⟩,
   s.cache, s.calls⟩

/-- Cache lookup (`key in cache` / `cache[key]`). -/
def cacheGet (s : ParseState) (key : Nat × Nat) : Option (Option Nat) :=
  assoc s.cache key

/-- Cache store (`cache[key] = v`). -/
def cacheSet (s : ParseState) (key : Nat × Nat) (v : Option Nat) : ParseState :=
  ⟨s.heap, (key, v) :: s.cache, s.calls⟩

/-- Record one `_match` invocation for `key` (ghost). -/
def logCall (s : ParseState) (key : Nat × Nat) : ParseState :=
  ⟨s.heap, s.cache, s.calls ++ [key]⟩

/-- How many times a variant matcher has run for `key` (ghost). -/
def callCount (s : ParseState) (key : Nat × Nat) : Nat :=
  (s.calls.filter (fun k => k = key)).length

/-- Outcome of a call that finished: a parse result (`some` node /
`none` for no match) or a raised exception. -/
inductive Outcome : Type where
  | ok (res : Option Nat)
  | err (e : Err)
deriving DecidableEq, Repr

/-- Result of running a call under fuel: `none` when the fuel is
exhausted (the Python computation has not returned yet). -/
def MRes : Type := Option (ParseState × Outcome)

/-- Sequence a computation with a continuation, propagating fuel
exhaustion and exceptions (Python control flow around a call). -/
def andThen (r : MRes) (f : ParseState → Option Nat → MRes) : MRes :=
  match r with
  | none => none
  | some (s, .err e) => some (s, .err e)
  | some (s, .ok v) => f s v

/-- The call descriptors of the engine: the public memoized `match`
entry points, the variant-specific `_match` bodies, and the source's
internal loops (alternative iteration, sequence iteration, repetition). -/
inductive Call : Type where
  | expr (e : Expr) (pos : Nat)
  | exprInner (e : Expr) (pos : Nat)
  | rule (r : Rule) (pos : Nat)
  | ruleInner (r : Rule) (pos : Nat)
  | term (t : Terminal) (pos : Nat)
  | termInner (t : Terminal) (pos : Nat)
  | alts (as : List Expr) (pos : Nat)
  | seqList (es : List Expr) (start cur : Nat) (acc : List Child)
  | rep (e : Expr) (start cur : Nat) (acc : List Child)

/-- The engine.  Each equation transcribes the corresponding Python
method of `grammar.py`:

* `.expr` / `.rule` / `.term` — the identical memoization wrappers
  `Expression.match`, `Rule.match`, `Terminal.match`: on a cache hit
  return the cached outcome unchanged; on a miss run the variant
  matcher (logged) and cache its outcome, success or failure alike;
  a raised exception is propagated without caching.
* `.exprInner` — `_match` of each `Expression` subclass.
* `.ruleInner` — `Rule._match`: match the rhs, and on success assign
  `result.type_ = self.name` (an in-place mutation of the returned,
  possibly shared, node).
* `.termInner` — `Terminal._match`: literal match of `self.term`.
* `.alts` — the `for alt in self.alts` loop of `Alts._match`.
* `.seqList` — the `for expression in self.expressions` loop of
  `Sequence._match`, carrying the saved entry position and the
  accumulated results.
* `.rep` — the `while result := self.expression.match(...)` loop shared
  by `Some._match` and `Many._match`, with the zero-width guard
  `if result.end - result.start == 0: break`.

Every recursive call consumes one unit of fuel. -/
def run (R : RegexM) (g : Grammar) (text : List Char) :
    Nat → Call → ParseState → MRes
  | 0, _, _ => none
  | fuel + 1, c, s =>
    match c with
    | .expr e pos =>
      match cacheGet s (e.eid, pos) with
      | some v => some (s, .ok v)
      | none =>
        andThen (run R g text fuel (.exprInner e pos) (logCall s (e.eid, pos)))
          (fun s1 r => some (cacheSet s1 (e.eid, pos) r, .ok r))
    | .rule r pos =>
      match cacheGet s (r.id, pos) with
      | some v => some (s, .ok v)
      | none =>
        andThen (run R g text fuel (.ruleInner r pos) (logCall s (r.id, pos)))
          (fun s1 v => some (cacheSet s1 (r.id, pos) v, .ok v))
    | .term t pos =>
      match cacheGet s (t.id, pos) with
      | some v => some (s, .ok v)
      | none =>
        andThen (run R g text fuel (.termInner t pos) (logCall s (t.id, pos)))
          (fun s1 v => some (cacheSet s1 (t.id, pos) v, .ok v))
    | .ruleInner r pos =>
      andThen (run R g text fuel (.expr r.rhs pos) s)
        (fun s1 v =>
          match v with
          | some nid => some (setTag s1 nid r.name, .ok (some nid))
          | none => some (s1, .ok none))
    | .termInner t pos =>
      match lit_match t.term text pos with
      | some e =>
        let an := alloc s [.str (pySlice text pos e)] pos e
        some (an.1, .ok (some an.2))
      | none => some (s, .ok none)
    | .exprInner e pos =>
      match e with
      | .Literal _ lit =>
        match lit_match lit text pos with
        | some e1 =>
          let an := alloc s [.str (pySlice text pos e1)] pos e1
          some (an.1, .ok (some an.2))
        | none => some (s, .ok none)
      | .RegEx _ pat =>
        match R pat text pos with
        | some e1 =>
          let an := alloc s [.str (pySlice text pos e1)] pos e1
          some (an.1, .ok (some an.2))
        | none => some (s, .ok none)
      | .Name _ n =>
        match g.getItem n with
        | .error ex => some (s, .err ex)
        | .ok (.rule r) => run R g text fuel (.rule r pos) s
        | .ok (.term t) => run R g text fuel (.term t pos) s
      | .Alts _ as => run R g text fuel (.alts as pos) s
      | .Sequence _ es => run R g text fuel (.seqList es pos pos []) s
      | .Optional _ inner =>
        andThen (run R g text fuel (.expr inner pos) s)
          (fun s1 v =>
            match v with
            | some nid => some (s1, .ok (some nid))
            | none =>
              let an := alloc s1 [] pos pos
              some (an.1, .ok (some an.2)))
      | .Some _ inner => run R g text fuel (.rep inner pos pos []) s
      | .Many _ inner =>
        andThen (run R g text fuel (.expr inner pos) s)
          (fun s1 v =>
            match v with
            | none => some (s1, .ok none)
            | some nid =>
              run R g text fuel (.rep inner pos (hget s1 nid).stop [.ref nid]) s1)
      | .PositiveLookahead _ inner =>
        andThen (run R g text fuel (.expr inner pos) s)
          (fun s1 v =>
            match v with
            | some _ =>
              let an := alloc s1 [] pos pos
              some (an.1, .ok (some an.2))
            | none => some (s1, .ok none))
      | .NegativeLookahead _ inner =>
        andThen (run R g text fuel (.expr inner pos) s)
          (fun s1 v =>
            match v with
            | some _ => some (s1, .ok none)
            | none =>
              let an := alloc s1 [] pos pos
              some (an.1, .ok (some an.2)))
    | .alts as pos =>
      match as with
      | [] => some (s, .ok none)
      | a :: rest =>
        andThen (run R g text fuel (.expr a pos) s)
          (fun s1 v =>
            match v with
            | some nid => some (s1, .ok (some nid))
            | none => run R g text fuel (.alts rest pos) s1)
    | .seqList es start cur acc =>
      match es with
      | [] =>
        let an := alloc s acc start cur
        some (an.1, .ok (some an.2))
      | e :: rest =>
        andThen (run R g text fuel (.expr e cur) s)
          (fun s1 v =>
            match v with
            | none => some (s1, .ok none)
            | some nid =>
              run R g text fuel (.seqList rest start (hget s1 nid).stop (acc ++ [.ref nid])) s1)
    | .rep e start cur acc =>
      andThen (run R g text fuel (.expr e cur) s)
        (fun s1 v =>
          match v with
          | none =>
            let an := alloc s1 acc start cur
            some (an.1, .ok (some an.2))
          | some nid =>
            if (hget s1 nid).stop - (hget s1 nid).start = 0 then
              let an := alloc s1 acc start cur
              some (an.1, .ok (some an.2))
            else
              run R g text fuel (.rep e start (hget s1 nid).stop (acc ++ [.ref nid])) s1)

/-- Modelled from the spec: `Grammar.parse` is described in the
specification ("creates one fresh ParseState bound to the text, looks
up the start rule, and invokes its `match`", returning `None` when the
start rule fails) but is absent from `src/` — the source `Grammar`
carries only the rule tables.  Faithful to the spec's words: one fresh
per-invocation state, an anchored invocation of the start rule's
`match` at the given offset. -/
def Grammar.parse (R : RegexM) (g : Grammar) (start : String)
    (text : List Char) (pos : Nat) (fuel : Nat) : MRes :=
  match assoc g.rules start with
  | none => some (emptyState, .err (.keyError start))
  | some r => run R g text fuel (.rule r pos) emptyState

/-!
## The lexer (`simon/lexer.py`)

A compiled pattern (`t.Pattern[str]`) is used only through
`pattern.match(text, pos)`; it is embedded as an opaque anchored
matching function returning the match end. -/

/-- A compiled regular-expression pattern, as the lexer uses it. -/
def Pattern : Type := List Char → Nat → Option Nat

/-- `lexer.py`'s `Token`: a `type_` (the rule name) and the matched
`value`. -/
structure Token : Type where
  type_ : String
  value : List Char
deriving DecidableEq, Repr

/-- `lexer.py`'s `TokenGenerator`: the text, the ordered rule table
(a Python dict preserves insertion order), and the internal offset
`_text_idx`. -/
structure TokenGenerator : Type where
  text : List Char
  rules : List (String × Pattern)
  text_idx : Nat

/-- `lexer.py`'s `LexingError` payload: the text, the offending
character, its offset, and its 1-based row/column. -/
structure LexingError : Type where
  text : List Char
  character : Char
  position : Nat
  row_col : Nat × Nat
deriving DecidableEq, Repr

/-- The step a character contributes to the row/column scan: a newline
increments the row and resets the column (`col = 0` then `col += 1`),
anything else increments the column. -/
def rowColStep (rc : Nat × Nat) (c : Char) : Nat × Nat :=
  if c = '\n' then (rc.1 + 1, 0 + 1) else (rc.1, rc.2 + 1)

/-- The `row_col` property of `TokenGenerator` (the same loop as
`utils._compute_row_col`): walk the first `idx` characters starting
from `(1, 1)`. -/
def rowCol (text : List Char) (idx : Nat) : Nat × Nat :=
  (text.take idx).foldl rowColStep (1, 1)

/-- The `for rule, pattern in self.rules.items()` loop of
`TokenGenerator._generate_token`: the first pattern matching at `idx`
wins, producing the token and the new offset (`match.end(0)`). -/
def genLoop (text : List Char) (idx : Nat) :
    List (String × Pattern) → Option (Token × Nat)
  | [] => none
  | (rule, pattern) :: rest =>
    match pattern text idx with
    | some e => some (⟨rule, pySlice text idx e⟩, e)
    | none => genLoop text idx rest

/-- The three outcomes of `_generate_token`: `None` at end of text, a
token with the advanced generator, or a raised `LexingError`. -/
inductive GenResult : Type where
  | eos
  | tok (t : Token) (g : TokenGenerator)
  | err (e : LexingError)

/-- `TokenGenerator._generate_token`: end-of-text yields `None`; else
the first matching pattern in declaration order yields a token and
advances `_text_idx` to the match end; else a `LexingError` is raised
carrying `self.text`, `self.text[self._text_idx]`, `self._text_idx`
and `self.row_col`. -/
def TokenGenerator.generateToken (g : TokenGenerator) : GenResult :=
  if g.text.length ≤ g.text_idx then
    .eos
  else
    match genLoop g.text g.text_idx g.rules with
    | some (t, e) => .tok t ⟨g.text, g.rules, e⟩
    | none =>
      .err ⟨g.text, g.text.getD g.text_idx ' ', g.text_idx, rowCol g.text g.text_idx⟩

/-!
## Auxiliary predicates and concrete fixtures

Used in theorem statements, witnesses and counterexamples. -/

mutual

/-- An expression with no `Name` (rule/terminal reference) inside: it
consults the grammar tables nowhere. -/
def nameFree : Expr → Bool
  | .Literal _ _ => true
  | .RegEx _ _ => true
  | .Name _ _ => false
  | .Alts _ as => nameFreeList as
  | .Sequence _ es => nameFreeList es
  | .Optional _ e => nameFree e
  | .Some _ e => nameFree e
  | .Many _ e => nameFree e
  | .PositiveLookahead _ e => nameFree e
  | .NegativeLookahead _ e => nameFree e

/-- `nameFree` on each element of a list. -/
def nameFreeList : List Expr → Bool
  | [] => true
  | e :: rest => nameFree e && nameFreeList rest

end

mutual

/-- Structural size of an expression, the measure for the termination
argument. -/
def esize : Expr → Nat
  | .Literal _ _ => 1
  | .RegEx _ _ => 1
  | .Name _ _ => 1
  | .Alts _ as => 1 + esizeList as
  | .Sequence _ es => 1 + esizeList es
  | .Optional _ e => 1 + esize e
  | .Some _ e => 1 + esize e
  | .Many _ e => 1 + esize e
  | .PositiveLookahead _ e => 1 + esize e
  | .NegativeLookahead _ e => 1 + esize e

/-- Total size of a list of expressions. -/
def esizeList : List Expr → Nat
  | [] => 0
  | e :: rest => esize e + esizeList rest

end

/-- The cache invariant of one parse over a text of length `L`: every
memoized success points at a live heap node whose span starts at the
memoized position and ends within the text.  (The spec's §3 `Node`
invariant, stated for the state.) -/
def CacheInv (L : Nat) (s : ParseState) : Prop :=
  ∀ k nid, cacheGet s k = some (some nid) →
    nid < s.heap.length ∧ (hget s nid).start = k.2 ∧
    k.2 ≤ (hget s nid).stop ∧ (hget s nid).stop ≤ L

/-- The position a call matches at. -/
def Call.cpos : Call → Nat
  | .expr _ p => p
  | .exprInner _ p => p
  | .rule _ p => p
  | .ruleInner _ p => p
  | .term _ p => p
  | .termInner _ p => p
  | .alts _ p => p
  | .seqList _ _ cur _ => cur
  | .rep _ _ cur _ => cur

/-- The start offset of the node a call would return (the saved entry
position for the sequence/repetition loops, the query position
otherwise). -/
def Call.cstart : Call → Nat
  | .seqList _ st _ _ => st
  | .rep _ st _ _ => st
  | c => c.cpos

/-- A regex collaborator that never matches; trivially well formed. -/
def R0 : RegexM := fun _ _ _ => none

/-- The empty grammar. -/
def g0 : Grammar := ⟨[], []⟩

/-- Greedy one-or-more run of a character class: the behaviour of
`re.compile` on the character-class-plus patterns the repository's
tests use. -/
def classPlus (p : Char → Bool) : Pattern := fun text idx =>
  let n := ((text.drop idx).takeWhile p).length
  if n = 0 then none else some (idx + n)

/-- The pattern `[A-Za-z]+`. -/
def namePattern : Pattern := classPlus Char.isAlpha

/-- The pattern `\s+` (Python whitespace class). -/
def wsPattern : Pattern :=
  classPlus (fun c =>
    (c = ' ') || (c = '\t') || (c = '\n') || (c = '\r') || (c = '\x0b') || (c = '\x0c'))

/-- The pattern `\d+`. -/
def intPattern : Pattern := classPlus Char.isDigit

/-- The ordered pattern table of the repository's lexer tests:
NAME, WHITESPACE, INTEGER. -/
def demoRules : List (String × Pattern) :=
  [("NAME", namePattern), ("WS", wsPattern), ("INT", intPattern)]

/-- A pattern matching a fixed literal. -/
def patLit (lit : List Char) : Pattern := fun text idx => lit_match lit text idx

/-- A left-recursive rule body: `a <- a`. -/
def loopRhs : Expr := .Alts 2 [.Name 3 "a"]

/-- The left-recursive rule `a`. -/
def loopRule : Rule := ⟨1, "a", loopRhs⟩

/-- The grammar containing only the left-recursive rule `a`. -/
def loopGrammar : Grammar := ⟨[("a", loopRule)], []⟩

/-- `ZeroOrMore` of a reference to the left-recursive rule. -/
def loopSome : Expr := .Some 5 (.Name 4 "a")

/-- The matcher of `loopSome` never returns, however much fuel it is
given: the engine's memoization writes a cache entry only after the
variant matcher returns, so a left-recursive reference re-enters
itself forever (a `RecursionError` in Python). -/
def someNameLoopDiverges : Prop :=
  ∀ fuel, run R0 loopGrammar ['x'] fuel (.expr loopSome 0) emptyState = none

/-- The spec's zero-width repetition example:
`ZeroOrMore(Optional(Literal("x")))`. -/
def zwSome : Expr := .Some 20 (.Optional 21 (.Literal 22 ['x']))

/-- Two rules `a` and `b` sharing one right-hand-side object (the
same Python object, hence the same id `10`). -/
def sharedRhs : Expr := .Literal 10 ['x']

/-- Rule `a` over the shared body. -/
def ruleA : Rule := ⟨11, "a", sharedRhs⟩

/-- Rule `b` over the shared body. -/
def ruleB : Rule := ⟨12, "b", sharedRhs⟩

/-- The grammar holding `a` and `b` with the shared body. -/
def sharedGrammar : Grammar := ⟨[("a", ruleA), ("b", ruleB)], []⟩

/-- A grammar whose tables are crossed: a rule stored under an
uppercase name and a terminal stored under a lowercase name. -/
def wrongTableGrammar : Grammar :=
  ⟨[("FOO", ⟨30, "FOO", .Literal 31 ['x']⟩)], [("foo", ⟨32, "foo", ['y']⟩)]⟩

/-- Between two states of one parse: if `k` is memoized in the first,
it stays memoized and its variant matcher has not run again. -/
def MemoPres (k : Nat × Nat) (s s1 : ParseState) : Prop :=
  cacheGet s k ≠ none → (cacheGet s1 k ≠ none ∧ callCount s1 k = callCount s k)

/-- The span property of a successful outcome: the returned node is
live, starts at `st`, and its span fits inside a text of length `L`. -/
def SpanPost (L st : Nat) (s1 : ParseState) (out : Outcome) : Prop :=
  ∀ nid, out = .ok (some nid) →
    nid < s1.heap.length ∧ (hget s1 nid).start = st ∧
    st ≤ (hget s1 nid).stop ∧ (hget s1 nid).stop ≤ L

/-!
## Basic lemmas about the state operations
-/

theorem assoc_cons {α β : Type} [DecidableEq α] (kv : α × β) (rest : List (α × β)) (k : α) :
    assoc (kv :: rest) k = if kv.1 = k then some kv.2 else assoc rest k := rfl

theorem cacheGet_cacheSet (s : ParseState) (key k : Nat × Nat) (v : Option Nat) :
    cacheGet (cacheSet s key v) k = if key = k then some v else cacheGet s k := rfl

theorem cacheGet_cacheSet_self (s : ParseState) (key : Nat × Nat) (v : Option Nat) :
    cacheGet (cacheSet s key v) key = some v := by
  simp [cacheGet_cacheSet]

theorem cacheGet_logCall (s : ParseState) (key k : Nat × Nat) :
    cacheGet (logCall s key) k = cacheGet s k := rfl

theorem cacheGet_alloc (s : ParseState) (ch : List Child) (a b : Nat) (k : Nat × Nat) :
    cacheGet (alloc s ch a b).1 k = cacheGet s k := rfl

theorem cacheGet_setTag (s : ParseState) (nid : Nat) (tg : String) (k : Nat × Nat) :
    cacheGet (setTag s nid tg) k = cacheGet s k := rfl

theorem callCount_cacheSet (s : ParseState) (key k : Nat × Nat) (v : Option Nat) :
    callCount (cacheSet s key v) k = callCount s k := rfl

theorem callCount_alloc (s : ParseState) (ch : List Child) (a b : Nat) (k : Nat × Nat) :
    callCount (alloc s ch a b).1 k = callCount s k := rfl

theorem callCount_setTag (s : ParseState) (nid : Nat) (tg : String) (k : Nat × Nat) :
    callCount (setTag s nid tg) k = callCount s k := rfl

theorem callCount_logCall_ne (s : ParseState) (key k : Nat × Nat) (h : key ≠ k) :
    callCount (logCall s key) k = callCount s k := by
  simp only [callCount, logCall, List.filter_append, List.length_append]
  have : List.filter (fun x => decide (x = k)) [key] = [] := by
    simp [List.filter, h]
  simp [this]

theorem andThen_split {r : MRes} {f : ParseState → Option Nat → MRes}
    {z : ParseState × Outcome} (h : andThen r f = some z) :
    ∃ s1 o1, r = some (s1, o1) ∧
      ((∃ e, o1 = .err e ∧ z = (s1, .err e)) ∨ (∃ v, o1 = .ok v ∧ f s1 v = some z)) := by
  match r, h with
  | some (s1, .err e), h =>
    refine ⟨s1, .err e, rfl, .inl ⟨e, rfl, ?_⟩⟩
    have h2 : some (s1, Outcome.err e) = some z := by
      rw [← h]
      rfl
    injection h2 with h3
    exact h3.symm
  | some (s1, .ok v), h =>
    exact ⟨s1, .ok v, rfl, .inr ⟨v, rfl, by simpa [andThen] using h⟩⟩

/-!
## The memoization wrappers (`Expression.match`, `Rule.match`,
`Terminal.match`)
-/

theorem run_expr_hit {R : RegexM} {g : Grammar} {text : List Char} {fuel : Nat}
    {e : Expr} {p : Nat} {s : ParseState} {v : Option Nat}
    (h : cacheGet s (e.eid, p) = some v) :
    run R g text (fuel + 1) (.expr e p) s = some (s, .ok v) := by
  simp [run, h]

theorem run_rule_hit {R : RegexM} {g : Grammar} {text : List Char} {fuel : Nat}
    {r : Rule} {p : Nat} {s : ParseState} {v : Option Nat}
    (h : cacheGet s (r.id, p) = some v) :
    run R g text (fuel + 1) (.rule r p) s = some (s, .ok v) := by
  simp [run, h]

theorem run_term_hit {R : RegexM} {g : Grammar} {text : List Char} {fuel : Nat}
    {t : Terminal} {p : Nat} {s : ParseState} {v : Option Nat}
    (h : cacheGet s (t.id, p) = some v) :
    run R g text (fuel + 1) (.term t p) s = some (s, .ok v) := by
  simp [run, h]

/-- A completed `Expression.match` call leaves its own outcome —
success or failure alike — memoized under its key. -/
theorem run_expr_caches {R : RegexM} {g : Grammar} {text : List Char} {fuel : Nat}
    {e : Expr} {p : Nat} {s s1 : ParseState} {v : Option Nat}
    (h : run R g text fuel (.expr e p) s = some (s1, .ok v)) :
    cacheGet s1 (e.eid, p) = some v := by
  match fuel, h with
  | fuel + 1, h =>
    rw [run] at h
    cases hc : cacheGet s (e.eid, p) with
    | some w =>
      rw [hc] at h
      cases h
      exact hc
    | none =>
      rw [hc] at h
      obtain ⟨s2, o2, _, hsplit⟩ := andThen_split h
      rcases hsplit with ⟨e2, rfl, hz⟩ | ⟨v2, rfl, hz⟩
      · cases hz
      · cases hz
        exact cacheGet_cacheSet_self ..

/-- A completed `Rule.match` call memoizes its outcome. -/
theorem run_rule_caches {R : RegexM} {g : Grammar} {text : List Char} {fuel : Nat}
    {r : Rule} {p : Nat} {s s1 : ParseState} {v : Option Nat}
    (h : run R g text fuel (.rule r p) s = some (s1, .ok v)) :
    cacheGet s1 (r.id, p) = some v := by
  match fuel, h with
  | fuel + 1, h =>
    rw [run] at h
    cases hc : cacheGet s (r.id, p) with
    | some w =>
      rw [hc] at h
      cases h
      exact hc
    | none =>
      rw [hc] at h
      obtain ⟨s2, o2, _, hsplit⟩ := andThen_split h
      rcases hsplit with ⟨e2, rfl, hz⟩ | ⟨v2, rfl, hz⟩
      · cases hz
      · cases hz
        exact cacheGet_cacheSet_self ..

/-- A completed `Terminal.match` call memoizes its outcome. -/
theorem run_term_caches {R : RegexM} {g : Grammar} {text : List Char} {fuel : Nat}
    {t : Terminal} {p : Nat} {s s1 : ParseState} {v : Option Nat}
    (h : run R g text fuel (.term t p) s = some (s1, .ok v)) :
    cacheGet s1 (t.id, p) = some v := by
  match fuel, h with
  | fuel + 1, h =>
    rw [run] at h
    cases hc : cacheGet s (t.id, p) with
    | some w =>
      rw [hc] at h
      cases h
      exact hc
    | none =>
      rw [hc] at h
      obtain ⟨s2, o2, _, hsplit⟩ := andThen_split h
      rcases hsplit with ⟨e2, rfl, hz⟩ | ⟨v2, rfl, hz⟩
      · cases hz
      · cases hz
        exact cacheGet_cacheSet_self ..

/-!
## Once memoized, the variant matcher never runs again
-/

theorem memoPres_refl (k : Nat × Nat) (s : ParseState) : MemoPres k s s :=
  fun h => ⟨h, rfl⟩

theorem memoPres_trans {k : Nat × Nat} {s1 s2 s3 : ParseState}
    (h1 : MemoPres k s1 s2) (h2 : MemoPres k s2 s3) : MemoPres k s1 s3 := by
  intro h
  obtain ⟨m1, c1⟩ := h1 h
  obtain ⟨m2, c2⟩ := h2 m1
  exact ⟨m2, by rw [c2, c1]⟩

theorem memoPres_cacheSet (k key : Nat × Nat) (v : Option Nat) (s : ParseState) :
    MemoPres k s (cacheSet s key v) := by
  intro h
  refine ⟨?_, callCount_cacheSet ..⟩
  rw [cacheGet_cacheSet]
  split
  · simp
  · exact h

theorem memoPres_alloc (k : Nat × Nat) (s : ParseState) (ch : List Child) (a b : Nat) :
    MemoPres k s (alloc s ch a b).1 :=
  fun h => ⟨h, rfl⟩

theorem memoPres_setTag (k : Nat × Nat) (s : ParseState) (nid : Nat) (tg : String) :
    MemoPres k s (setTag s nid tg) :=
  fun h => ⟨h, rfl⟩

theorem memoPres_logCall_ne {k key : Nat × Nat} {s : ParseState} (h : key ≠ k) :
    MemoPres k s (logCall s key) :=
  fun hm => ⟨hm, callCount_logCall_ne s key k h⟩

/-- Master lemma: any completed call of the engine preserves every
already-memoized key and runs no variant matcher for it again. -/
theorem run_memo_once (R : RegexM) (g : Grammar) (text : List Char) :
    ∀ fuel c s z k, run R g text fuel c s = some z → MemoPres k s z.1 := by
  intro fuel
  induction fuel with
  | zero =>
    intro c s z k h
    rw [run] at h
    cases h
  | succ fuel ih =>
    intro c s z k h
    cases c with
    | expr e pos =>
      rw [run] at h
      cases hc : cacheGet s (e.eid, pos) with
      | some v =>
        rw [hc] at h
        cases h
        exact memoPres_refl _ _
      | none =>
        rw [hc] at h
        obtain ⟨s1, o1, hr, hsplit⟩ := andThen_split h
        intro hk
        have hne : (e.eid, pos) ≠ k := fun he => hk (he ▸ hc)
        have hstep := memoPres_trans (memoPres_logCall_ne hne) (ih _ _ (s1, o1) k hr)
        rcases hsplit with ⟨er, rfl, rfl⟩ | ⟨v, rfl, hz⟩
        · exact hstep hk
        · cases hz
          exact memoPres_trans hstep (memoPres_cacheSet _ _ _ _) hk
    | rule r pos =>
      rw [run] at h
      cases hc : cacheGet s (r.id, pos) with
      | some v =>
        rw [hc] at h
        cases h
        exact memoPres_refl _ _
      | none =>
        rw [hc] at h
        obtain ⟨s1, o1, hr, hsplit⟩ := andThen_split h
        intro hk
        have hne : (r.id, pos) ≠ k := fun he => hk (he ▸ hc)
        have hstep := memoPres_trans (memoPres_logCall_ne hne) (ih _ _ (s1, o1) k hr)
        rcases hsplit with ⟨er, rfl, rfl⟩ | ⟨v, rfl, hz⟩
        · exact hstep hk
        · cases hz
          exact memoPres_trans hstep (memoPres_cacheSet _ _ _ _) hk
    | term t pos =>
      rw [run] at h
      cases hc : cacheGet s (t.id, pos) with
      | some v =>
        rw [hc] at h
        cases h
        exact memoPres_refl _ _
      | none =>
        rw [hc] at h
        obtain ⟨s1, o1, hr, hsplit⟩ := andThen_split h
        intro hk
        have hne : (t.id, pos) ≠ k := fun he => hk (he ▸ hc)
        have hstep := memoPres_trans (memoPres_logCall_ne hne) (ih _ _ (s1, o1) k hr)
        rcases hsplit with ⟨er, rfl, rfl⟩ | ⟨v, rfl, hz⟩
        · exact hstep hk
        · cases hz
          exact memoPres_trans hstep (memoPres_cacheSet _ _ _ _) hk
    | ruleInner r pos =>
      rw [run] at h
      obtain ⟨s1, o1, hr, hsplit⟩ := andThen_split h
      have hstep := ih _ _ (s1, o1) k hr
      rcases hsplit with ⟨er, rfl, rfl⟩ | ⟨v, rfl, hz⟩
      · exact hstep
      · cases v with
        | some nid =>
          cases hz
          exact memoPres_trans hstep (memoPres_setTag _ _ _ _)
        | none =>
          cases hz
          exact hstep
    | termInner t pos =>
      rw [run] at h
      cases hl : lit_match t.term text pos with
      | some e1 =>
        rw [hl] at h
        cases h
        exact memoPres_alloc _ _ _ _ _
      | none =>
        rw [hl] at h
        cases h
        exact memoPres_refl _ _
    | exprInner e pos =>
      cases e with
      | Literal i lit =>
        rw [run] at h
        cases hl : lit_match lit text pos with
        | some e1 =>
          rw [hl] at h
          cases h
          exact memoPres_alloc _ _ _ _ _
        | none =>
          rw [hl] at h
          cases h
          exact memoPres_refl _ _
      | RegEx i pat =>
        rw [run] at h
        cases hl : R pat text pos with
        | some e1 =>
          rw [hl] at h
          cases h
          exact memoPres_alloc _ _ _ _ _
        | none =>
          rw [hl] at h
          cases h
          exact memoPres_refl _ _
      | Name i n =>
        rw [run] at h
        cases hg : g.getItem n with
        | error ex =>
          rw [hg] at h
          cases h
          exact memoPres_refl _ _
        | ok m =>
          cases m with
          | rule r =>
            rw [hg] at h
            exact ih _ _ _ k h
          | term t =>
            rw [hg] at h
            exact ih _ _ _ k h
      | Alts i as =>
        rw [run] at h
        exact ih _ _ _ k h
      | Sequence i es =>
        rw [run] at h
        exact ih _ _ _ k h
      | Optional i inner =>
        rw [run] at h
        obtain ⟨s1, o1, hr, hsplit⟩ := andThen_split h
        have hstep := ih _ _ (s1, o1) k hr
        rcases hsplit with ⟨er, rfl, rfl⟩ | ⟨v, rfl, hz⟩
        · exact hstep
        · cases v with
          | some nid =>
            cases hz
            exact hstep
          | none =>
            cases hz
            exact memoPres_trans hstep (memoPres_alloc _ _ _ _ _)
      | Some i inner =>
        rw [run] at h
        exact ih _ _ _ k h
      | Many i inner =>
        rw [run] at h
        obtain ⟨s1, o1, hr, hsplit⟩ := andThen_split h
        have hstep := ih _ _ (s1, o1) k hr
        rcases hsplit with ⟨er, rfl, rfl⟩ | ⟨v, rfl, hz⟩
        · exact hstep
        · cases v with
          | none =>
            cases hz
            exact hstep
          | some nid =>
            exact memoPres_trans hstep (ih _ _ _ k hz)
      | PositiveLookahead i inner =>
        rw [run] at h
        obtain ⟨s1, o1, hr, hsplit⟩ := andThen_split h
        have hstep := ih _ _ (s1, o1) k hr
        rcases hsplit with ⟨er, rfl, rfl⟩ | ⟨v, rfl, hz⟩
        · exact hstep
        · cases v with
          | some nid =>
            cases hz
            exact memoPres_trans hstep (memoPres_alloc _ _ _ _ _)
          | none =>
            cases hz
            exact hstep
      | NegativeLookahead i inner =>
        rw [run] at h
        obtain ⟨s1, o1, hr, hsplit⟩ := andThen_split h
        have hstep := ih _ _ (s1, o1) k hr
        rcases hsplit with ⟨er, rfl, rfl⟩ | ⟨v, rfl, hz⟩
        · exact hstep
        · cases v with
          | some nid =>
            cases hz
            exact hstep
          | none =>
            cases hz
            exact memoPres_trans hstep (memoPres_alloc _ _ _ _ _)
    | alts as pos =>
      cases as with
      | nil =>
        rw [run] at h
        cases h
        exact memoPres_refl _ _
      | cons a rest =>
        rw [run] at h
        obtain ⟨s1, o1, hr, hsplit⟩ := andThen_split h
        have hstep := ih _ _ (s1, o1) k hr
        rcases hsplit with ⟨er, rfl, rfl⟩ | ⟨v, rfl, hz⟩
        · exact hstep
        · cases v with
          | some nid =>
            cases hz
            exact hstep
          | none =>
            exact memoPres_trans hstep (ih _ _ _ k hz)
    | seqList es start cur acc =>
      cases es with
      | nil =>
        rw [run] at h
        cases h
        exact memoPres_alloc _ _ _ _ _
      | cons e rest =>
        rw [run] at h
        obtain ⟨s1, o1, hr, hsplit⟩ := andThen_split h
        have hstep := ih _ _ (s1, o1) k hr
        rcases hsplit with ⟨er, rfl, rfl⟩ | ⟨v, rfl, hz⟩
        · exact hstep
        · cases v with
          | none =>
            cases hz
            exact hstep
          | some nid =>
            exact memoPres_trans hstep (ih _ _ _ k hz)
    | rep e start cur acc =>
      rw [run] at h
      obtain ⟨s1, o1, hr, hsplit⟩ := andThen_split h
      have hstep := ih _ _ (s1, o1) k hr
      rcases hsplit with ⟨er, rfl, rfl⟩ | ⟨v, rfl, hz⟩
      · exact hstep
      · cases v with
        | none =>
          cases hz
          exact memoPres_trans hstep (memoPres_alloc _ _ _ _ _)
        | some nid =>
          have hz2 : (if (hget s1 nid).stop - (hget s1 nid).start = 0 then
                some ((alloc s1 acc start cur).1, Outcome.ok (some (alloc s1 acc start cur).2))
              else run R g text fuel (Call.rep e start (hget s1 nid).stop (acc ++ [Child.ref nid])) s1) =
              some z := hz
          by_cases hzw : (hget s1 nid).stop - (hget s1 nid).start = 0
          · rw [if_pos hzw] at hz2
            cases hz2
            exact memoPres_trans hstep (memoPres_alloc _ _ _ _ _)
          · rw [if_neg hzw] at hz2
            exact memoPres_trans hstep (ih _ _ _ k hz2)

/-!
## Claim C1 — memoization idempotence
-/

/-- C1.  Memoization idempotence: through a single cache
(`ParseState`), a completed first `match` call — whether
`Expression.match`, `Rule.match` or `Terminal.match` — leaves its
outcome memoized, and a second call at the same position returns the
identical result (the same node identity, including a memoized
"no match") with the state returned entirely untouched — no
allocation, no cache write, no `_match` invocation.  And once a key is
memoized, no later call of any kind invokes the variant matcher
`_match` for that `(expression identity, position)` pair again, so
`_match` runs at most once per distinct memoized pair. -/
theorem c1_memoization_idempotence (R : RegexM) (g : Grammar) (text : List Char) :
    (∀ fuel fuel2 (e : Expr) p s s1 v,
      run R g text fuel (.expr e p) s = some (s1, .ok v) →
      run R g text (fuel2 + 1) (.expr e p) s1 = some (s1, .ok v))
    ∧ (∀ fuel fuel2 (r : Rule) p s s1 v,
      run R g text fuel (.rule r p) s = some (s1, .ok v) →
      run R g text (fuel2 + 1) (.rule r p) s1 = some (s1, .ok v))
    ∧ (∀ fuel fuel2 (t : Terminal) p s s1 v,
      run R g text fuel (.term t p) s = some (s1, .ok v) →
      run R g text (fuel2 + 1) (.term t p) s1 = some (s1, .ok v))
    ∧ (∀ fuel c s z k, run R g text fuel c s = some z →
      cacheGet s k ≠ none → callCount z.1 k = callCount s k) := by
  refine ⟨?_, ?_, ?_, ?_⟩
  · intro fuel fuel2 e p s s1 v h
    exact run_expr_hit (run_expr_caches h)
  · intro fuel fuel2 r p s s1 v h
    exact run_rule_hit (run_rule_caches h)
  · intro fuel fuel2 t p s s1 v h
    exact run_term_hit (run_term_caches h)
  · intro fuel c s z k h hk
    exact (run_memo_once R g text fuel c s z k h hk).2

/-- Witness for C1 at a concrete input: matching `Literal "x"` on
text `"x"` succeeds and fills the cache; the second call returns the
same node with the state unchanged. -/
theorem c1_memoization_idempotence_witness :
    (run R0 g0 ['x'] 5 (.expr (.Literal 0 ['x']) 0) emptyState =
      some (⟨[⟨[.str ['x']], 0, 1, ""⟩], [((0, 0), some 0)], [(0, 0)]⟩, .ok (some 0)))
    ∧ (run R0 g0 ['x'] 3 (.expr (.Literal 0 ['x']) 0)
        ⟨[⟨[.str ['x']], 0, 1, ""⟩], [((0, 0), some 0)], [(0, 0)]⟩ =
      some (⟨[⟨[.str ['x']], 0, 1, ""⟩], [((0, 0), some 0)], [(0, 0)]⟩, .ok (some 0))) :=
  ⟨by rfl,
   (c1_memoization_idempotence R0 g0 ['x']).1 5 2 (.Literal 0 ['x']) 0 emptyState _ _
     (by rfl)⟩

/-!
## Claim C2 — ordered choice
-/

/-- C2.  Ordered choice: `Alts._match` runs the alternatives loop at
the fixed starting position; when the first item succeeds its result
is the whole result, whatever the later items are (so with both `A`
and `B` able to match, `Alts [A, B]` returns `A`'s result, never
`B`'s); when the first item fails, the rest are tried in order from
the same position; the empty list fails; and a failing `Alts` run
means every item failed in turn. -/
theorem c2_ordered_choice (R : RegexM) (g : Grammar) (text : List Char) :
    (∀ fuel i as p s,
      run R g text (fuel + 1) (.exprInner (.Alts i as) p) s = run R g text fuel (.alts as p) s)
    ∧ (∀ fuel (a : Expr) rest p s s1 nid,
      run R g text fuel (.expr a p) s = some (s1, .ok (some nid)) →
      run R g text (fuel + 1) (.alts (a :: rest) p) s = some (s1, .ok (some nid)))
    ∧ (∀ fuel (a : Expr) rest p s s1,
      run R g text fuel (.expr a p) s = some (s1, .ok none) →
      run R g text (fuel + 1) (.alts (a :: rest) p) s = run R g text fuel (.alts rest p) s1)
    ∧ (∀ fuel p s, run R g text (fuel + 1) (.alts ([] : List Expr) p) s = some (s, .ok none))
    ∧ (∀ fuel (a : Expr) rest p s s2,
      run R g text (fuel + 1) (.alts (a :: rest) p) s = some (s2, .ok none) →
      ∃ s1, run R g text fuel (.expr a p) s = some (s1, .ok none) ∧
        run R g text fuel (.alts rest p) s1 = some (s2, .ok none)) := by
  refine ⟨?_, ?_, ?_, ?_, ?_⟩
  · intro fuel i as p s
    rw [run]
  · intro fuel a rest p s s1 nid h
    rw [run, h]
    rfl
  · intro fuel a rest p s s1 h
    rw [run, h]
    rfl
  · intro fuel p s
    rw [run]
  · intro fuel a rest p s s2 h
    rw [run] at h
    obtain ⟨s1, o1, hr, hsplit⟩ := andThen_split h
    rcases hsplit with ⟨er, rfl, hz⟩ | ⟨v, rfl, hz⟩
    · cases hz
    · cases v with
      | some nid => cases hz
      | none => exact ⟨s1, hr, hz⟩

/-- Witness for C2 at a concrete input: `Literal "a"` and a second
`Literal "a"` both match `"a"` at 0; the ordered choice returns the
first one's node. -/
theorem c2_ordered_choice_witness :
    (run R0 g0 ['a'] 3 (.expr (.Literal 0 ['a']) 0) emptyState =
      some (⟨[⟨[.str ['a']], 0, 1, ""⟩], [((0, 0), some 0)], [(0, 0)]⟩, .ok (some 0)))
    ∧ (run R0 g0 ['a'] 4 (.alts [.Literal 0 ['a'], .Literal 1 ['a']] 0) emptyState =
      some (⟨[⟨[.str ['a']], 0, 1, ""⟩], [((0, 0), some 0)], [(0, 0)]⟩, .ok (some 0))) :=
  ⟨by rfl,
   (c2_ordered_choice R0 g0 ['a']).2.1 3 (.Literal 0 ['a']) [.Literal 1 ['a']] 0
     emptyState _ 0 (by rfl)⟩

/-!
## Claim C7 — rule-name resolution
-/

/-- C7 (amended).  `Name._match` on a name absent from the consulted
table raises the lookup `KeyError` carrying the missing name — an
outcome distinct from an ordinary "no match" —, and on a present name
delegates to the resolved rule's (or terminal's) `match`, returning
its result unchanged. -/
theorem c7_name_resolution (R : RegexM) (g : Grammar) (text : List Char) :
    (∀ fuel i n p s ex, Grammar.getItem g n = .error ex →
      run R g text (fuel + 1) (.exprInner (.Name i n) p) s = some (s, .err ex))
    ∧ (∀ fuel i n p s r, Grammar.getItem g n = .ok (.rule r) →
      run R g text (fuel + 1) (.exprInner (.Name i n) p) s = run R g text fuel (.rule r p) s)
    ∧ (∀ fuel i n p s t, Grammar.getItem g n = .ok (.term t) →
      run R g text (fuel + 1) (.exprInner (.Name i n) p) s = run R g text fuel (.term t p) s)
    ∧ (∀ (ex : Err) (v : Option Nat), Outcome.err ex ≠ Outcome.ok v) := by
  refine ⟨?_, ?_, ?_, ?_⟩
  · intro fuel i n p s ex h
    rw [run, h]
  · intro fuel i n p s r h
    rw [run, h]
  · intro fuel i n p s t h
    rw [run, h]
  · intro ex v h
    cases h

/-- Witness for C7: in `loopGrammar`, the name `"a"` resolves to the
rule and `Name._match` delegates to it; the name `"b"` is absent and
raises `KeyError "b"`. -/
theorem c7_name_resolution_witness :
    (Grammar.getItem loopGrammar "b" = .error (.keyError "b")
      ∧ run R0 loopGrammar ['x'] 4 (.exprInner (.Name 7 "b") 0) emptyState =
          some (emptyState, .err (.keyError "b")))
    ∧ (Grammar.getItem loopGrammar "a" = .ok (.rule loopRule)
      ∧ run R0 loopGrammar ['x'] 4 (.exprInner (.Name 7 "a") 0) emptyState =
          run R0 loopGrammar ['x'] 3 (.rule loopRule 0) emptyState) :=
  ⟨⟨by rfl,
    (c7_name_resolution R0 loopGrammar ['x']).1 3 7 "b" 0 emptyState _ (by rfl)⟩,
   ⟨by rfl,
    (c7_name_resolution R0 loopGrammar ['x']).2.1 3 7 "a" 0 emptyState loopRule (by rfl)⟩⟩

/-- C7 counterexample to the claim as stated: the resolution error
does not carry the offending text or position.  Matching an absent
name on two different texts at two different positions raises the
very same error value, `KeyError "q"`, so the raised error determines
neither the text nor the position. -/
theorem c7_name_resolution_counterexample :
    (run R0 g0 ['a', 'b', 'c'] 1 (.exprInner (.Name 0 "q") 0) emptyState =
      some (emptyState, .err (.keyError "q")))
    ∧ (run R0 g0 ['x', 'y', 'z', 'w'] 1 (.exprInner (.Name 0 "q") 3) emptyState =
      some (emptyState, .err (.keyError "q"))) := by
  constructor
  · rfl
  · rfl

/-!
## Claim C10 — name dispatch between the two tables
-/

/-- C10.  `Grammar.__getitem__` consults only the `terminals` table
for an uppercase name (the result is independent of the `rules`
table, and the lookup fails when the terminals table lacks the name,
however the rules table reads) and only the `rules` table otherwise
(symmetrically); so a rule stored under an uppercase name, or a
terminal stored under a non-uppercase name, is never found. -/
theorem c10_name_dispatch :
    ∀ (g : Grammar) (n : String),
      (pyIsUpper n = true →
        (∀ rules2, Grammar.getItem g n = Grammar.getItem ⟨rules2, g.terminals⟩ n)
        ∧ (assoc g.terminals n = none → Grammar.getItem g n = .error (.keyError n)))
      ∧ (pyIsUpper n = false →
        (∀ terminals2, Grammar.getItem g n = Grammar.getItem ⟨g.rules, terminals2⟩ n)
        ∧ (assoc g.rules n = none → Grammar.getItem g n = .error (.keyError n))) := by
  intro g n
  constructor
  · intro hu
    constructor
    · intro rules2
      simp [Grammar.getItem, hu]
    · intro ha
      simp [Grammar.getItem, hu, ha]
  · intro hu
    constructor
    · intro terminals2
      simp [Grammar.getItem, hu]
    · intro ha
      simp [Grammar.getItem, hu, ha]

/-- Witness for C10: in `wrongTableGrammar` the rule filed under
`"FOO"` and the terminal filed under `"foo"` are both unreachable. -/
theorem c10_name_dispatch_witness :
    (pyIsUpper "FOO" = true ∧ assoc wrongTableGrammar.terminals "FOO" = none
      ∧ Grammar.getItem wrongTableGrammar "FOO" = .error (.keyError "FOO"))
    ∧ (pyIsUpper "foo" = false ∧ assoc wrongTableGrammar.rules "foo" = none
      ∧ Grammar.getItem wrongTableGrammar "foo" = .error (.keyError "foo")) :=
  ⟨⟨by decide, by decide,
    ((c10_name_dispatch wrongTableGrammar "FOO").1 (by decide)).2 (by decide)⟩,
   ⟨by decide, by rfl,
    ((c10_name_dispatch wrongTableGrammar "foo").2 (by decide)).2 (by rfl)⟩⟩

/-!
## Claims C8 and C9 — the tokenizer
-/

/-- Patterns that all fail at the current offset are skipped by the
token loop. -/
theorem genLoop_append_none {text : List Char} {idx : Nat}
    {pre : List (String × Pattern)} (l : List (String × Pattern))
    (h : ∀ q ∈ pre, q.2 text idx = none) :
    genLoop text idx (pre ++ l) = genLoop text idx l := by
  induction pre with
  | nil => rfl
  | cons q rest ih =>
    have hq : q.2 text idx = none := h q (by simp)
    rw [List.cons_append, genLoop, hq]
    exact ih (fun p hp => h p (by simp [hp]))

/-- C8.  Tokenizer first-match-wins: at a non-end offset, with every
earlier pattern failing there, the first pattern that matches as a
prefix — in declaration order — produces the token, whatever the later
patterns would do (in particular when a later pattern would match a
longer prefix), and the internal offset advances by exactly the
matched length. -/
theorem c8_first_match_wins (text : List Char) (idx : Nat)
    (pre : List (String × Pattern)) (k : String) (pat : Pattern)
    (rest : List (String × Pattern)) (e : Nat)
    (hidx : idx < text.length)
    (hpre : ∀ q ∈ pre, q.2 text idx = none)
    (hpat : pat text idx = some e)
    (hle : idx ≤ e) (hee : e ≤ text.length) :
    TokenGenerator.generateToken ⟨text, pre ++ (k, pat) :: rest, idx⟩ =
      .tok ⟨k, pySlice text idx e⟩ ⟨text, pre ++ (k, pat) :: rest, e⟩
    ∧ e = idx + (pySlice text idx e).length := by
  constructor
  · rw [TokenGenerator.generateToken]
    rw [if_neg (by simp; omega)]
    simp only []
    rw [genLoop_append_none _ hpre, genLoop, hpat]
  · simp only [pySlice, List.length_take, List.length_drop]
    omega

/-- Witness for C8: on `"ab"`, after a failing pattern `"z"`, the
pattern `"a"` wins over the later pattern `"ab"` that would match a
longer prefix; the offset advances by the matched length 1. -/
theorem c8_first_match_wins_witness :
    TokenGenerator.generateToken
        ⟨['a', 'b'], [("Z", patLit ['z'])] ++ ("SHORT", patLit ['a']) ::
          [("LONG", patLit ['a', 'b'])], 0⟩ =
      .tok ⟨"SHORT", pySlice ['a', 'b'] 0 1⟩
        ⟨['a', 'b'], [("Z", patLit ['z'])] ++ ("SHORT", patLit ['a']) ::
          [("LONG", patLit ['a', 'b'])], 1⟩
    ∧ 1 = 0 + (pySlice ['a', 'b'] 0 1).length :=
  c8_first_match_wins ['a', 'b'] 0 [("Z", patLit ['z'])] "SHORT" (patLit ['a'])
    [("LONG", patLit ['a', 'b'])] 1 (by decide)
    (by
      intro q hq
      rw [List.mem_singleton] at hq
      subst hq
      rfl)
    (by rfl) (by decide) (by decide)

/-- C9.  Tokenizer failure discipline: at or past end of text the
generator signals end of stream (never an error); at a non-end offset
where no pattern matches it raises the lexing error — and only then —
carrying the offending character, its offset and its 1-based
row/column; on `"1 + 1"` with the NAME/WS/INT patterns the first two
tokens are produced and the next request raises at offset 2,
character `+`, row/column `(1, 3)`. -/
theorem c9_failure_discipline :
    (∀ gen : TokenGenerator, gen.text.length ≤ gen.text_idx →
      gen.generateToken = .eos)
    ∧ (∀ gen : TokenGenerator, gen.text_idx < gen.text.length →
      genLoop gen.text gen.text_idx gen.rules = none →
      gen.generateToken = .err ⟨gen.text, gen.text.getD gen.text_idx ' ',
        gen.text_idx, rowCol gen.text gen.text_idx⟩)
    ∧ (TokenGenerator.generateToken ⟨"1 + 1".toList, demoRules, 0⟩ =
      .tok ⟨"INT", ['1']⟩ ⟨"1 + 1".toList, demoRules, 1⟩)
    ∧ (TokenGenerator.generateToken ⟨"1 + 1".toList, demoRules, 1⟩ =
      .tok ⟨"WS", [' ']⟩ ⟨"1 + 1".toList, demoRules, 2⟩)
    ∧ (TokenGenerator.generateToken ⟨"1 + 1".toList, demoRules, 2⟩ =
      .err ⟨"1 + 1".toList, '+', 2, (1, 3)⟩) := by
  refine ⟨?_, ?_, by rfl, by rfl, by rfl⟩
  · intro gen h
    rw [TokenGenerator.generateToken, if_pos h]
  · intro gen h hl
    rw [TokenGenerator.generateToken, if_neg (by omega), hl]

/-- Witness for C9: end of stream at the end of `"hi"`; the raised
error on `"1 + 1"` at offset 2 via the general conjunct. -/
theorem c9_failure_discipline_witness :
    (TokenGenerator.generateToken ⟨['h', 'i'], demoRules, 2⟩ = .eos)
    ∧ (TokenGenerator.generateToken ⟨"1 + 1".toList, demoRules, 2⟩ =
      .err ⟨"1 + 1".toList, "1 + 1".toList.getD 2 ' ', 2, rowCol "1 + 1".toList 2⟩) :=
  ⟨c9_failure_discipline.1 ⟨['h', 'i'], demoRules, 2⟩ (by decide),
   c9_failure_discipline.2.1 ⟨"1 + 1".toList, demoRules, 2⟩ (by decide) (by rfl)⟩

/-!
## Heap lemmas
-/

theorem hget_alloc_lt {s : ParseState} {nid : Nat} (h : nid < s.heap.length)
    (ch : List Child) (a b : Nat) : hget (alloc s ch a b).1 nid = hget s nid := by
  simp only [hget, alloc, List.getD_eq_getElem?_getD]
  rw [List.getElem?_append_left h]

theorem hget_alloc_self (s : ParseState) (ch : List Child) (a b : Nat) :
    hget (alloc s ch a b).1 (alloc s ch a b).2 = ⟨ch, a, b, ""⟩ := by
  simp only [hget, alloc, List.getD_eq_getElem?_getD]
  rw [List.getElem?_concat_length]
  rfl

theorem heapLength_alloc (s : ParseState) (ch : List Child) (a b : Nat) :
    (alloc s ch a b).1.heap.length = s.heap.length + 1 := by
  simp [alloc]

theorem alloc_snd (s : ParseState) (ch : List Child) (a b : Nat) :
    (alloc s ch a b).2 = s.heap.length := rfl

theorem heapLength_setTag (s : ParseState) (nid : Nat) (tg : String) :
    (setTag s nid tg).heap.length = s.heap.length := by
  simp [setTag]

theorem hget_setTag_ne {s : ParseState} {nid j : Nat} (h : j ≠ nid) (tg : String) :
    hget (setTag s nid tg) j = hget s j := by
  simp only [hget, setTag, List.getD_eq_getElem?_getD]
  rw [List.getElem?_set_ne (fun he => h he.symm)]

theorem hget_setTag_fields (s : ParseState) (nid : Nat) (tg : String) (j : Nat) :
    (hget (setTag s nid tg) j).start = (hget s j).start ∧
    (hget (setTag s nid tg) j).stop = (hget s j).stop ∧
    (hget (setTag s nid tg) j).children = (hget s j).children := by
  by_cases hj : j = nid
  · subst hj
    by_cases hl : j < s.heap.length
    · simp only [hget, setTag, List.getD_eq_getElem?_getD]
      rw [List.getElem?_set_self (by simpa using hl)]
      simp only [Option.getD_some, Option.getD]
      cases hh : s.heap[j]? with
      | none => exact absurd (List.getElem?_eq_getElem hl) (by simp [hh])
      | some nd => simp [hget, List.getD_eq_getElem?_getD, hh]
    · have hset : setTag s j tg = ⟨s.heap, s.cache, s.calls⟩ := by
        simp only [setTag]
        rw [List.set_eq_of_length_le (by omega)]
      rw [hset]
      exact ⟨rfl, rfl, rfl⟩
  · rw [hget_setTag_ne hj]
    exact ⟨rfl, rfl, rfl⟩

theorem hget_setTag_self {s : ParseState} {nid : Nat} (h : nid < s.heap.length)
    (tg : String) : (hget (setTag s nid tg) nid).type_ = tg := by
  simp only [hget, setTag, List.getD_eq_getElem?_getD]
  rw [List.getElem?_set_self (by simpa using h)]
  cases hh : s.heap[nid]? with
  | none => exact absurd (List.getElem?_eq_getElem h) (by simp [hh])
  | some nd => simp

/-!
## Cache-invariant preservation
-/

theorem cacheInv_logCall {L : Nat} {s : ParseState} (h : CacheInv L s) (key : Nat × Nat) :
    CacheInv L (logCall s key) := h

theorem cacheInv_alloc {L : Nat} {s : ParseState} (h : CacheInv L s)
    (ch : List Child) (a b : Nat) : CacheInv L (alloc s ch a b).1 := by
  intro k nid hk
  obtain ⟨h1, h2, h3, h4⟩ := h k nid hk
  rw [heapLength_alloc, hget_alloc_lt h1]
  exact ⟨by omega, h2, h3, h4⟩

theorem cacheInv_setTag {L : Nat} {s : ParseState} (h : CacheInv L s)
    (nid : Nat) (tg : String) : CacheInv L (setTag s nid tg) := by
  intro k j hk
  obtain ⟨h1, h2, h3, h4⟩ := h k j hk
  obtain ⟨f1, f2, _⟩ := hget_setTag_fields s nid tg j
  rw [heapLength_setTag, f1, f2]
  exact ⟨h1, h2, h3, h4⟩

theorem cacheInv_cacheSet {L : Nat} {s : ParseState} (h : CacheInv L s)
    (key : Nat × Nat) (v : Option Nat)
    (hv : ∀ nid, v = some nid →
      nid < s.heap.length ∧ (hget s nid).start = key.2 ∧
      key.2 ≤ (hget s nid).stop ∧ (hget s nid).stop ≤ L) :
    CacheInv L (cacheSet s key v) := by
  intro k nid hk
  rw [cacheGet_cacheSet] at hk
  by_cases hkey : key = k
  · rw [if_pos hkey] at hk
    injection hk with hk
    subst hkey
    exact hv nid hk
  · rw [if_neg hkey] at hk
    exact h k nid hk

theorem lit_match_bounds {lit text : List Char} {pos e : Nat}
    (h : lit_match lit text pos = some e) : pos ≤ e ∧ e ≤ text.length := by
  unfold lit_match at h
  split at h
  · injection h with h
    omega
  · cases h

/-!
## The span master lemma
-/

/-- Master span lemma: with a well-formed regex collaborator, any
completed call started at a valid position from a state satisfying the
cache invariant preserves the invariant, only grows the heap, and any
node it returns starts at the call's entry offset and spans within the
text. -/
theorem run_span {R : RegexM} (g : Grammar) (text : List Char) (hR : RegexWF R) :
    ∀ fuel c s s1 out, run R g text fuel c s = some (s1, out) →
      c.cstart ≤ c.cpos → c.cpos ≤ text.length → CacheInv text.length s →
      CacheInv text.length s1 ∧ s.heap.length ≤ s1.heap.length ∧
        SpanPost text.length c.cstart s1 out := by
  intro fuel
  induction fuel with
  | zero =>
    intro c s s1 out h
    rw [run] at h
    cases h
  | succ fuel ih =>
    intro c s s1 out h hsc hcl hInv
    cases c with
    | expr e pos =>
      rw [run] at h
      cases hc : cacheGet s (e.eid, pos) with
      | some v =>
        rw [hc] at h
        cases h
        refine ⟨hInv, Nat.le_refl _, ?_⟩
        intro nid hv
        cases hv
        exact hInv (e.eid, pos) nid hc
      | none =>
        rw [hc] at h
        obtain ⟨s2, o2, hr, hsplit⟩ := andThen_split h
        obtain ⟨hI2, hlen2, hpost2⟩ :=
          ih (.exprInner e pos) (logCall s (e.eid, pos)) s2 o2 hr
            (Nat.le_refl _) hcl (cacheInv_logCall hInv _)
        rcases hsplit with ⟨er, rfl, hz⟩ | ⟨v, rfl, hz⟩
        · cases hz
          exact ⟨hI2, hlen2, fun nid hv => by cases hv⟩
        · cases hz
          refine ⟨cacheInv_cacheSet hI2 _ v ?_, hlen2, ?_⟩
          · intro nid hv
            exact hpost2 nid (by rw [hv])
          · intro nid hv
            exact hpost2 nid hv
    | rule r pos =>
      rw [run] at h
      cases hc : cacheGet s (r.id, pos) with
      | some v =>
        rw [hc] at h
        cases h
        refine ⟨hInv, Nat.le_refl _, ?_⟩
        intro nid hv
        cases hv
        exact hInv (r.id, pos) nid hc
      | none =>
        rw [hc] at h
        obtain ⟨s2, o2, hr, hsplit⟩ := andThen_split h
        obtain ⟨hI2, hlen2, hpost2⟩ :=
          ih (.ruleInner r pos) (logCall s (r.id, pos)) s2 o2 hr
            (Nat.le_refl _) hcl (cacheInv_logCall hInv _)
        rcases hsplit with ⟨er, rfl, hz⟩ | ⟨v, rfl, hz⟩
        · cases hz
          exact ⟨hI2, hlen2, fun nid hv => by cases hv⟩
        · cases hz
          refine ⟨cacheInv_cacheSet hI2 _ v ?_, hlen2, ?_⟩
          · intro nid hv
            exact hpost2 nid (by rw [hv])
          · intro nid hv
            exact hpost2 nid hv
    | term t pos =>
      rw [run] at h
      cases hc : cacheGet s (t.id, pos) with
      | some v =>
        rw [hc] at h
        cases h
        refine ⟨hInv, Nat.le_refl _, ?_⟩
        intro nid hv
        cases hv
        exact hInv (t.id, pos) nid hc
      | none =>
        rw [hc] at h
        obtain ⟨s2, o2, hr, hsplit⟩ := andThen_split h
        obtain ⟨hI2, hlen2, hpost2⟩ :=
          ih (.termInner t pos) (logCall s (t.id, pos)) s2 o2 hr
            (Nat.le_refl _) hcl (cacheInv_logCall hInv _)
        rcases hsplit with ⟨er, rfl, hz⟩ | ⟨v, rfl, hz⟩
        · cases hz
          exact ⟨hI2, hlen2, fun nid hv => by cases hv⟩
        · cases hz
          refine ⟨cacheInv_cacheSet hI2 _ v ?_, hlen2, ?_⟩
          · intro nid hv
            exact hpost2 nid (by rw [hv])
          · intro nid hv
            exact hpost2 nid hv
    | ruleInner r pos =>
      rw [run] at h
      obtain ⟨s2, o2, hr, hsplit⟩ := andThen_split h
      obtain ⟨hI2, hlen2, hpost2⟩ :=
        ih (.expr r.rhs pos) s s2 o2 hr (Nat.le_refl _) hcl hInv
      rcases hsplit with ⟨er, rfl, hz⟩ | ⟨v, rfl, hz⟩
      · cases hz
        exact ⟨hI2, hlen2, fun nid hv => by cases hv⟩
      · cases v with
        | some nid =>
          cases hz
          refine ⟨cacheInv_setTag hI2 nid r.name, ?_, ?_⟩
          · rw [heapLength_setTag]
            exact hlen2
          · intro nid2 hv
            injection hv with hv
            injection hv with hv
            subst hv
            obtain ⟨b1, b2, b3, b4⟩ := hpost2 nid rfl
            obtain ⟨f1, f2, _⟩ := hget_setTag_fields s2 nid r.name nid
            rw [heapLength_setTag, f1, f2]
            exact ⟨b1, b2, b3, b4⟩
        | none =>
          cases hz
          exact ⟨hI2, hlen2, fun nid hv => by cases hv⟩
    | termInner t pos =>
      rw [run] at h
      cases hl : lit_match t.term text pos with
      | some e1 =>
        rw [hl] at h
        cases h
        obtain ⟨hb1, hb2⟩ := lit_match_bounds hl
        refine ⟨cacheInv_alloc hInv _ _ _, ?_, ?_⟩
        · rw [heapLength_alloc]
          omega
        · intro nid hv
          injection hv with hv
          injection hv with hv
          subst hv
          rw [heapLength_alloc, hget_alloc_self, alloc_snd]
          exact ⟨by omega, rfl, hb1, hb2⟩
      | none =>
        rw [hl] at h
        cases h
        exact ⟨hInv, Nat.le_refl _, fun nid hv => by cases hv⟩
    | exprInner e pos =>
      cases e with
      | Literal i lit =>
        rw [run] at h
        cases hl : lit_match lit text pos with
        | some e1 =>
          rw [hl] at h
          cases h
          obtain ⟨hb1, hb2⟩ := lit_match_bounds hl
          refine ⟨cacheInv_alloc hInv _ _ _, ?_, ?_⟩
          · rw [heapLength_alloc]
            omega
          · intro nid hv
            injection hv with hv
            injection hv with hv
            subst hv
            rw [heapLength_alloc, hget_alloc_self, alloc_snd]
            exact ⟨by omega, rfl, hb1, hb2⟩
        | none =>
          rw [hl] at h
          cases h
          exact ⟨hInv, Nat.le_refl _, fun nid hv => by cases hv⟩
      | RegEx i pat =>
        rw [run] at h
        cases hl : R pat text pos with
        | some e1 =>
          rw [hl] at h
          cases h
          obtain ⟨hb1, hb2⟩ := hR pat text pos e1 hl
          refine ⟨cacheInv_alloc hInv _ _ _, ?_, ?_⟩
          · rw [heapLength_alloc]
            omega
          · intro nid hv
            injection hv with hv
            injection hv with hv
            subst hv
            rw [heapLength_alloc, hget_alloc_self, alloc_snd]
            exact ⟨by omega, rfl, hb1, hb2⟩
        | none =>
          rw [hl] at h
          cases h
          exact ⟨hInv, Nat.le_refl _, fun nid hv => by cases hv⟩
      | Name i n =>
        rw [run] at h
        cases hg : g.getItem n with
        | error ex =>
          rw [hg] at h
          cases h
          exact ⟨hInv, Nat.le_refl _, fun nid hv => by cases hv⟩
        | ok m =>
          cases m with
          | rule r =>
            rw [hg] at h
            exact ih (.rule r pos) s s1 out h (Nat.le_refl _) hcl hInv
          | term t =>
            rw [hg] at h
            exact ih (.term t pos) s s1 out h (Nat.le_refl _) hcl hInv
      | Alts i as =>
        rw [run] at h
        exact ih (.alts as pos) s s1 out h (Nat.le_refl _) hcl hInv
      | Sequence i es =>
        rw [run] at h
        exact ih (.seqList es pos pos []) s s1 out h (Nat.le_refl _) hcl hInv
      | Optional i inner =>
        rw [run] at h
        obtain ⟨s2, o2, hr, hsplit⟩ := andThen_split h
        obtain ⟨hI2, hlen2, hpost2⟩ :=
          ih (.expr inner pos) s s2 o2 hr (Nat.le_refl _) hcl hInv
        rcases hsplit with ⟨er, rfl, hz⟩ | ⟨v, rfl, hz⟩
        · cases hz
          exact ⟨hI2, hlen2, fun nid hv => by cases hv⟩
        · cases v with
          | some nid =>
            cases hz
            exact ⟨hI2, hlen2, hpost2⟩
          | none =>
            cases hz
            refine ⟨cacheInv_alloc hI2 _ _ _, ?_, ?_⟩
            · rw [heapLength_alloc]
              omega
            · intro nid hv
              injection hv with hv
              injection hv with hv
              subst hv
              rw [heapLength_alloc, hget_alloc_self, alloc_snd]
              exact ⟨by omega, rfl, Nat.le_refl _, hcl⟩
      | Some i inner =>
        rw [run] at h
        exact ih (.rep inner pos pos []) s s1 out h (Nat.le_refl _) hcl hInv
      | Many i inner =>
        rw [run] at h
        obtain ⟨s2, o2, hr, hsplit⟩ := andThen_split h
        obtain ⟨hI2, hlen2, hpost2⟩ :=
          ih (.expr inner pos) s s2 o2 hr (Nat.le_refl _) hcl hInv
        rcases hsplit with ⟨er, rfl, hz⟩ | ⟨v, rfl, hz⟩
        · cases hz
          exact ⟨hI2, hlen2, fun nid hv => by cases hv⟩
        · cases v with
          | none =>
            cases hz
            exact ⟨hI2, hlen2, fun nid hv => by cases hv⟩
          | some nid =>
            obtain ⟨hn1, hn2, hn3, hn4⟩ := hpost2 nid rfl
            obtain ⟨hI3, hlen3, hpost3⟩ :=
              ih (.rep inner pos (hget s2 nid).stop [.ref nid]) s2 s1 out hz
                (hn2 ▸ hn3) hn4 hI2
            exact ⟨hI3, Nat.le_trans hlen2 hlen3, hpost3⟩
      | PositiveLookahead i inner =>
        rw [run] at h
        obtain ⟨s2, o2, hr, hsplit⟩ := andThen_split h
        obtain ⟨hI2, hlen2, hpost2⟩ :=
          ih (.expr inner pos) s s2 o2 hr (Nat.le_refl _) hcl hInv
        rcases hsplit with ⟨er, rfl, hz⟩ | ⟨v, rfl, hz⟩
        · cases hz
          exact ⟨hI2, hlen2, fun nid hv => by cases hv⟩
        · cases v with
          | some nid =>
            cases hz
            refine ⟨cacheInv_alloc hI2 _ _ _, ?_, ?_⟩
            · rw [heapLength_alloc]
              omega
            · intro nid2 hv
              injection hv with hv
              injection hv with hv
              subst hv
              rw [heapLength_alloc, hget_alloc_self, alloc_snd]
              exact ⟨by omega, rfl, Nat.le_refl _, hcl⟩
          | none =>
            cases hz
            exact ⟨hI2, hlen2, fun nid hv => by cases hv⟩
      | NegativeLookahead i inner =>
        rw [run] at h
        obtain ⟨s2, o2, hr, hsplit⟩ := andThen_split h
        obtain ⟨hI2, hlen2, hpost2⟩ :=
          ih (.expr inner pos) s s2 o2 hr (Nat.le_refl _) hcl hInv
        rcases hsplit with ⟨er, rfl, hz⟩ | ⟨v, rfl, hz⟩
        · cases hz
          exact ⟨hI2, hlen2, fun nid hv => by cases hv⟩
        · cases v with
          | some nid =>
            cases hz
            exact ⟨hI2, hlen2, fun nid hv => by cases hv⟩
          | none =>
            cases hz
            refine ⟨cacheInv_alloc hI2 _ _ _, ?_, ?_⟩
            · rw [heapLength_alloc]
              omega
            · intro nid hv
              injection hv with hv
              injection hv with hv
              subst hv
              rw [heapLength_alloc, hget_alloc_self, alloc_snd]
              exact ⟨by omega, rfl, Nat.le_refl _, hcl⟩
    | alts as pos =>
      cases as with
      | nil =>
        rw [run] at h
        cases h
        exact ⟨hInv, Nat.le_refl _, fun nid hv => by cases hv⟩
      | cons a rest =>
        rw [run] at h
        obtain ⟨s2, o2, hr, hsplit⟩ := andThen_split h
        obtain ⟨hI2, hlen2, hpost2⟩ :=
          ih (.expr a pos) s s2 o2 hr (Nat.le_refl _) hcl hInv
        rcases hsplit with ⟨er, rfl, hz⟩ | ⟨v, rfl, hz⟩
        · cases hz
          exact ⟨hI2, hlen2, fun nid hv => by cases hv⟩
        · cases v with
          | some nid =>
            cases hz
            exact ⟨hI2, hlen2, hpost2⟩
          | none =>
            obtain ⟨hI3, hlen3, hpost3⟩ :=
              ih (.alts rest pos) s2 s1 out hz (Nat.le_refl _) hcl hI2
            exact ⟨hI3, Nat.le_trans hlen2 hlen3, hpost3⟩
    | seqList es st cur acc =>
      cases es with
      | nil =>
        rw [run] at h
        cases h
        refine ⟨cacheInv_alloc hInv _ _ _, ?_, ?_⟩
        · rw [heapLength_alloc]
          omega
        · intro nid hv
          injection hv with hv
          injection hv with hv
          subst hv
          rw [heapLength_alloc, hget_alloc_self, alloc_snd]
          exact ⟨by omega, rfl, hsc, hcl⟩
      | cons e rest =>
        rw [run] at h
        obtain ⟨s2, o2, hr, hsplit⟩ := andThen_split h
        obtain ⟨hI2, hlen2, hpost2⟩ :=
          ih (.expr e cur) s s2 o2 hr (Nat.le_refl _) hcl hInv
        rcases hsplit with ⟨er, rfl, hz⟩ | ⟨v, rfl, hz⟩
        · cases hz
          exact ⟨hI2, hlen2, fun nid hv => by cases hv⟩
        · cases v with
          | none =>
            cases hz
            exact ⟨hI2, hlen2, fun nid hv => by cases hv⟩
          | some nid =>
            obtain ⟨hn1, hn2, hn3, hn4⟩ := hpost2 nid rfl
            have hstep : cur ≤ (hget s2 nid).stop := hn3
            have hsc2 : st ≤ cur := hsc
            obtain ⟨hI3, hlen3, hpost3⟩ :=
              ih (.seqList rest st (hget s2 nid).stop (acc ++ [.ref nid])) s2 s1 out hz
                (show st ≤ (hget s2 nid).stop by omega) hn4 hI2
            exact ⟨hI3, Nat.le_trans hlen2 hlen3, hpost3⟩
    | rep e st cur acc =>
      rw [run] at h
      obtain ⟨s2, o2, hr, hsplit⟩ := andThen_split h
      obtain ⟨hI2, hlen2, hpost2⟩ :=
        ih (.expr e cur) s s2 o2 hr (Nat.le_refl _) hcl hInv
      rcases hsplit with ⟨er, rfl, hz⟩ | ⟨v, rfl, hz⟩
      · cases hz
        exact ⟨hI2, hlen2, fun nid hv => by cases hv⟩
      · cases v with
        | none =>
          cases hz
          refine ⟨cacheInv_alloc hI2 _ _ _, ?_, ?_⟩
          · rw [heapLength_alloc]
            omega
          · intro nid hv
            injection hv with hv
            injection hv with hv
            subst hv
            rw [heapLength_alloc, hget_alloc_self, alloc_snd]
            exact ⟨by omega, rfl, hsc, hcl⟩
        | some nid =>
          obtain ⟨hn1, hn2, hn3, hn4⟩ := hpost2 nid rfl
          have hz2 : (if (hget s2 nid).stop - (hget s2 nid).start = 0 then
                some ((alloc s2 acc st cur).1, Outcome.ok (some (alloc s2 acc st cur).2))
              else run R g text fuel
                (Call.rep e st (hget s2 nid).stop (acc ++ [Child.ref nid])) s2) =
              some (s1, out) := hz
          by_cases hzw : (hget s2 nid).stop - (hget s2 nid).start = 0
          · rw [if_pos hzw] at hz2
            cases hz2
            refine ⟨cacheInv_alloc hI2 _ _ _, ?_, ?_⟩
            · rw [heapLength_alloc]
              omega
            · intro nid2 hv
              injection hv with hv
              injection hv with hv
              subst hv
              rw [heapLength_alloc, hget_alloc_self, alloc_snd]
              exact ⟨by omega, rfl, hsc, hcl⟩
          · rw [if_neg hzw] at hz2
            have hstep : cur ≤ (hget s2 nid).stop := hn3
            have hsc2 : st ≤ cur := hsc
            obtain ⟨hI3, hlen3, hpost3⟩ :=
              ih (.rep e st (hget s2 nid).stop (acc ++ [.ref nid])) s2 s1 out hz2
                (show st ≤ (hget s2 nid).stop by omega) hn4 hI2
            exact ⟨hI3, Nat.le_trans hlen2 hlen3, hpost3⟩

theorem cacheInv_empty (L : Nat) : CacheInv L emptyState :=
  fun _ _ hk => by cases hk

/-!
## Claim C4 — span invariant
-/

/-- C4.  Span invariant: for every expression variant matched through
the memoizing `match` at a position `p ≤ len(t)` (from any state
satisfying the per-parse cache invariant, the fresh state included),
a successful match returns a node with `start = p ≤ stop ≤ len(t)`;
and the terminal matchers — `Literal._match`, `RegEx._match`,
`Terminal._match` — return a node whose single child is exactly
`t[start:stop]`. -/
theorem c4_span_invariant (R : RegexM) (g : Grammar) (text : List Char) :
    (∀ fuel (e : Expr) p s s1 nid, RegexWF R → p ≤ text.length →
      CacheInv text.length s →
      run R g text fuel (.expr e p) s = some (s1, .ok (some nid)) →
      nid < s1.heap.length ∧ (hget s1 nid).start = p ∧
        p ≤ (hget s1 nid).stop ∧ (hget s1 nid).stop ≤ text.length)
    ∧ (∀ fuel i lit p s s1 nid,
      run R g text (fuel + 1) (.exprInner (.Literal i lit) p) s = some (s1, .ok (some nid)) →
      (hget s1 nid).children =
        [.str (pySlice text (hget s1 nid).start (hget s1 nid).stop)])
    ∧ (∀ fuel i pat p s s1 nid,
      run R g text (fuel + 1) (.exprInner (.RegEx i pat) p) s = some (s1, .ok (some nid)) →
      (hget s1 nid).children =
        [.str (pySlice text (hget s1 nid).start (hget s1 nid).stop)])
    ∧ (∀ fuel (t : Terminal) p s s1 nid,
      run R g text (fuel + 1) (.termInner t p) s = some (s1, .ok (some nid)) →
      (hget s1 nid).children =
        [.str (pySlice text (hget s1 nid).start (hget s1 nid).stop)]) := by
  refine ⟨?_, ?_, ?_, ?_⟩
  · intro fuel e p s s1 nid hR hp hInv h
    obtain ⟨_, _, hpost⟩ := run_span g text hR fuel (.expr e p) s s1 _ h (Nat.le_refl _) hp hInv
    exact hpost nid rfl
  · intro fuel i lit p s s1 nid h
    rw [run] at h
    cases hl : lit_match lit text p with
    | some e1 =>
      rw [hl] at h
      cases h
      rw [hget_alloc_self]
    | none =>
      rw [hl] at h
      cases h
  · intro fuel i pat p s s1 nid h
    rw [run] at h
    cases hl : R pat text p with
    | some e1 =>
      rw [hl] at h
      cases h
      rw [hget_alloc_self]
    | none =>
      rw [hl] at h
      cases h
  · intro fuel t p s s1 nid h
    rw [run] at h
    cases hl : lit_match t.term text p with
    | some e1 =>
      rw [hl] at h
      cases h
      rw [hget_alloc_self]
    | none =>
      rw [hl] at h
      cases h

/-- Witness for C4: `Literal "a"` on text `"ab"` at 0 spans `[0, 1)`
within the text, and its single child is `t[0:1] = "a"`. -/
theorem c4_span_invariant_witness :
    ((0 : Nat) < (⟨[⟨[.str ['a']], 0, 1, ""⟩], [((0, 0), some 0)], [(0, 0)]⟩ :
        ParseState).heap.length
      ∧ (hget ⟨[⟨[.str ['a']], 0, 1, ""⟩], [((0, 0), some 0)], [(0, 0)]⟩ 0).start = 0
      ∧ 0 ≤ (hget ⟨[⟨[.str ['a']], 0, 1, ""⟩], [((0, 0), some 0)], [(0, 0)]⟩ 0).stop
      ∧ (hget ⟨[⟨[.str ['a']], 0, 1, ""⟩], [((0, 0), some 0)], [(0, 0)]⟩ 0).stop ≤
          ['a', 'b'].length)
    ∧ (hget ⟨[⟨[.str ['a']], 0, 1, ""⟩], [], []⟩ 0).children =
      [.str (pySlice ['a', 'b'] (hget ⟨[⟨[.str ['a']], 0, 1, ""⟩], [], []⟩ 0).start
        (hget ⟨[⟨[.str ['a']], 0, 1, ""⟩], [], []⟩ 0).stop)] := by
  constructor
  · exact (c4_span_invariant R0 g0 ['a', 'b']).1 3 (.Literal 0 ['a']) 0 emptyState _ 0
      (fun _ _ _ _ h => by cases h) (by decide) (cacheInv_empty _) (by rfl)
  · exact (c4_span_invariant R0 g0 ['a', 'b']).2.1 0 0 ['a'] 0 emptyState _ 0 (by rfl)

/-!
## Claim C5 — rule tagging
-/

/-- C5 (amended).  `Rule._match` frame property: when the body's
`match` returns a node, the rule sets that node's tag to its name and
mutates nothing else — every other heap node is untouched, every
node's `children`/`start`/`stop` are untouched, and the cache and the
invocation log are untouched; but the node it mutates is the node the
body returned, which may be a memoized node shared with other callers
rather than a fresh one.  On failure of the body the failure is
propagated with no mutation at all. -/
theorem c5_rule_tagging (R : RegexM) (g : Grammar) (text : List Char) :
    (∀ fuel (r : Rule) p s s1 nid,
      run R g text fuel (.expr r.rhs p) s = some (s1, .ok (some nid)) →
      run R g text (fuel + 1) (.ruleInner r p) s = some (setTag s1 nid r.name, .ok (some nid))
      ∧ (nid < s1.heap.length → (hget (setTag s1 nid r.name) nid).type_ = r.name)
      ∧ (∀ j, j ≠ nid → hget (setTag s1 nid r.name) j = hget s1 j)
      ∧ (∀ j, (hget (setTag s1 nid r.name) j).start = (hget s1 j).start
          ∧ (hget (setTag s1 nid r.name) j).stop = (hget s1 j).stop
          ∧ (hget (setTag s1 nid r.name) j).children = (hget s1 j).children)
      ∧ (setTag s1 nid r.name).cache = s1.cache
      ∧ (setTag s1 nid r.name).calls = s1.calls)
    ∧ (∀ fuel (r : Rule) p s s1,
      run R g text fuel (.expr r.rhs p) s = some (s1, .ok none) →
      run R g text (fuel + 1) (.ruleInner r p) s = some (s1, .ok none)) := by
  constructor
  · intro fuel r p s s1 nid h
    refine ⟨?_, ?_, ?_, ?_, rfl, rfl⟩
    · rw [run, h]
      rfl
    · intro hlt
      exact hget_setTag_self hlt r.name
    · intro j hj
      exact hget_setTag_ne hj r.name
    · intro j
      exact hget_setTag_fields s1 nid r.name j
  · intro fuel r p s s1 h
    rw [run, h]
    rfl

/-- Witness for C5: rule `a`'s body (`Literal "x"`) matches `"x"`,
and `Rule._match` returns that node tagged `"a"`. -/
theorem c5_rule_tagging_witness :
    run R0 sharedGrammar ['x'] 6 (.ruleInner ruleA 0)
        emptyState =
      some (setTag ⟨[⟨[.str ['x']], 0, 1, ""⟩], [((10, 0), some 0)], [(10, 0)]⟩ 0 "a",
        .ok (some 0))
    ∧ (hget (setTag ⟨[⟨[.str ['x']], 0, 1, ""⟩], [((10, 0), some 0)], [(10, 0)]⟩ 0 "a")
        0).type_ = "a" :=
  ⟨((c5_rule_tagging R0 sharedGrammar ['x']).1 5 ruleA 0 emptyState _ 0 (by rfl)).1,
   ((c5_rule_tagging R0 sharedGrammar ['x']).1 5 ruleA 0 emptyState _ 0 (by rfl)).2.1
     (by decide)⟩

/-- C5 counterexample to the claim as stated: nodes already cached and
shared with another rule ARE mutated.  Rules `a` and `b` share one
body object; after `a` matches `"x"` its memoized node is tagged
`"a"`, but `b`'s subsequent match at the same position receives the
very same node from the shared body's cache entry and retags it
`"b"` — so the node cached for rule `a` now carries tag `"b"`, and a
later memoized `a` match returns a node tagged `"b"`. -/
theorem c5_rule_tagging_counterexample :
    (run R0 sharedGrammar ['x'] 10 (.rule ruleA 0) emptyState =
      some (⟨[⟨[.str ['x']], 0, 1, "a"⟩],
        [((11, 0), some 0), ((10, 0), some 0)], [(11, 0), (10, 0)]⟩, .ok (some 0)))
    ∧ cacheGet ⟨[⟨[.str ['x']], 0, 1, "a"⟩],
        [((11, 0), some 0), ((10, 0), some 0)], [(11, 0), (10, 0)]⟩ (11, 0) = some (some 0)
    ∧ (hget ⟨[⟨[.str ['x']], 0, 1, "a"⟩],
        [((11, 0), some 0), ((10, 0), some 0)], [(11, 0), (10, 0)]⟩ 0).type_ = "a"
    ∧ (run R0 sharedGrammar ['x'] 10 (.rule ruleB 0)
        ⟨[⟨[.str ['x']], 0, 1, "a"⟩],
          [((11, 0), some 0), ((10, 0), some 0)], [(11, 0), (10, 0)]⟩ =
      some (⟨[⟨[.str ['x']], 0, 1, "b"⟩],
        [((12, 0), some 0), ((11, 0), some 0), ((10, 0), some 0)],
        [(11, 0), (10, 0), (12, 0)]⟩, .ok (some 0)))
    ∧ (hget ⟨[⟨[.str ['x']], 0, 1, "b"⟩],
        [((12, 0), some 0), ((11, 0), some 0), ((10, 0), some 0)],
        [(11, 0), (10, 0), (12, 0)]⟩ 0).type_ = "b"
    ∧ (run R0 sharedGrammar ['x'] 1 (.rule ruleA 0)
        ⟨[⟨[.str ['x']], 0, 1, "b"⟩],
          [((12, 0), some 0), ((11, 0), some 0), ((10, 0), some 0)],
          [(11, 0), (10, 0), (12, 0)]⟩ =
      some (⟨[⟨[.str ['x']], 0, 1, "b"⟩],
        [((12, 0), some 0), ((11, 0), some 0), ((10, 0), some 0)],
        [(11, 0), (10, 0), (12, 0)]⟩, .ok (some 0))) :=
  ⟨by rfl, by rfl, by rfl, by rfl, by rfl, by rfl⟩

/-!
## Claim C6 — the parse entry point
-/

/-- C6.  Parse entry point (modelled from the spec, `Grammar.parse`
being absent from the source): `parse` creates one fresh
per-invocation state — empty heap, empty cache, empty log — bound to
the text, looks up the start rule and invokes its `match` at exactly
the given offset; it returns the no-match outcome whenever the start
rule fails there, and any success is anchored: the returned node
starts exactly at the given offset, with no scanning of later
positions. -/
theorem c6_parse_entry (R : RegexM) (g : Grammar) (text : List Char) :
    (∀ start p fuel r, assoc g.rules start = some r →
      Grammar.parse R g start text p fuel = run R g text fuel (.rule r p) emptyState)
    ∧ (emptyState.heap = [] ∧ emptyState.cache = [] ∧ emptyState.calls = [])
    ∧ (∀ start p fuel r s1, assoc g.rules start = some r →
      run R g text fuel (.rule r p) emptyState = some (s1, .ok none) →
      Grammar.parse R g start text p fuel = some (s1, .ok none))
    ∧ (RegexWF R → ∀ start p fuel s1 nid, p ≤ text.length →
      Grammar.parse R g start text p fuel = some (s1, .ok (some nid)) →
      (hget s1 nid).start = p ∧ p ≤ (hget s1 nid).stop ∧
        (hget s1 nid).stop ≤ text.length) := by
  refine ⟨?_, ⟨rfl, rfl, rfl⟩, ?_, ?_⟩
  · intro start p fuel r hr
    rw [Grammar.parse, hr]
  · intro start p fuel r s1 hr h
    rw [Grammar.parse, hr]
    exact h
  · intro hR start p fuel s1 nid hp h
    rw [Grammar.parse] at h
    cases hr : assoc g.rules start with
    | none =>
      rw [hr] at h
      cases h
    | some r =>
      rw [hr] at h
      obtain ⟨_, _, hpost⟩ :=
        run_span g text hR fuel (.rule r p) emptyState s1 _ h (Nat.le_refl _) hp
          (cacheInv_empty _)
      obtain ⟨_, h2, h3, h4⟩ := hpost nid rfl
      exact ⟨h2, h3, h4⟩

/-- Witness for C6: parsing `"x"` from the start rule `a` of the
shared grammar delegates to the rule's match on a fresh state, and
the success is anchored at offset 0. -/
theorem c6_parse_entry_witness :
    (Grammar.parse R0 sharedGrammar "a" ['x'] 0 10 =
      run R0 sharedGrammar ['x'] 10 (.rule ruleA 0) emptyState)
    ∧ ((hget ⟨[⟨[.str ['x']], 0, 1, "a"⟩],
        [((11, 0), some 0), ((10, 0), some 0)], [(11, 0), (10, 0)]⟩ 0).start = 0
      ∧ 0 ≤ (hget ⟨[⟨[.str ['x']], 0, 1, "a"⟩],
          [((11, 0), some 0), ((10, 0), some 0)], [(11, 0), (10, 0)]⟩ 0).stop
      ∧ (hget ⟨[⟨[.str ['x']], 0, 1, "a"⟩],
          [((11, 0), some 0), ((10, 0), some 0)], [(11, 0), (10, 0)]⟩ 0).stop ≤
        ['x'].length) :=
  ⟨(c6_parse_entry R0 sharedGrammar ['x']).1 "a" 0 10 ruleA (by rfl),
   (c6_parse_entry R0 sharedGrammar ['x']).2.2.2 (fun _ _ _ _ h => by cases h)
     "a" 0 10 _ 0 (by decide) (by rfl)⟩

/-!
## Fuel monotonicity
-/

/-- A completed run stays completed, with the same answer, under more
fuel. -/
theorem run_mono (R : RegexM) (g : Grammar) (text : List Char) :
    ∀ fuel c s z, run R g text fuel c s = some z →
      run R g text (fuel + 1) c s = some z := by
  intro fuel
  induction fuel with
  | zero =>
    intro c s z h
    rw [run] at h
    cases h
  | succ fuel ih =>
    intro c s z h
    cases c with
    | expr e pos =>
      rw [run] at h ⊢
      cases hc : cacheGet s (e.eid, pos) with
      | some v =>
        rw [hc] at h
        exact h
      | none =>
        rw [hc] at h
        obtain ⟨s1, o1, hr, hsplit⟩ := andThen_split h
        rw [ih _ _ _ hr]
        rcases hsplit with ⟨er, rfl, rfl⟩ | ⟨v, rfl, hz⟩
        · rfl
        · exact hz
    | rule r pos =>
      rw [run] at h ⊢
      cases hc : cacheGet s (r.id, pos) with
      | some v =>
        rw [hc] at h
        exact h
      | none =>
        rw [hc] at h
        obtain ⟨s1, o1, hr, hsplit⟩ := andThen_split h
        rw [ih _ _ _ hr]
        rcases hsplit with ⟨er, rfl, rfl⟩ | ⟨v, rfl, hz⟩
        · rfl
        · exact hz
    | term t pos =>
      rw [run] at h ⊢
      cases hc : cacheGet s (t.id, pos) with
      | some v =>
        rw [hc] at h
        exact h
      | none =>
        rw [hc] at h
        obtain ⟨s1, o1, hr, hsplit⟩ := andThen_split h
        rw [ih _ _ _ hr]
        rcases hsplit with ⟨er, rfl, rfl⟩ | ⟨v, rfl, hz⟩
        · rfl
        · exact hz
    | ruleInner r pos =>
      rw [run] at h ⊢
      obtain ⟨s1, o1, hr, hsplit⟩ := andThen_split h
      rw [ih _ _ _ hr]
      rcases hsplit with ⟨er, rfl, rfl⟩ | ⟨v, rfl, hz⟩
      · rfl
      · exact hz
    | termInner t pos =>
      rw [run] at h ⊢
      exact h
    | exprInner e pos =>
      cases e with
      | Literal i lit =>
        rw [run] at h ⊢
        exact h
      | RegEx i pat =>
        rw [run] at h ⊢
        exact h
      | Name i n =>
        rw [run] at h ⊢
        cases hg : g.getItem n with
        | error ex =>
          rw [hg] at h
          exact h
        | ok m =>
          cases m with
          | rule r =>
            rw [hg] at h
            exact ih _ _ _ h
          | term t =>
            rw [hg] at h
            exact ih _ _ _ h
      | Alts i as =>
        rw [run] at h ⊢
        exact ih _ _ _ h
      | Sequence i es =>
        rw [run] at h ⊢
        exact ih _ _ _ h
      | Optional i inner =>
        rw [run] at h ⊢
        obtain ⟨s1, o1, hr, hsplit⟩ := andThen_split h
        rw [ih _ _ _ hr]
        rcases hsplit with ⟨er, rfl, rfl⟩ | ⟨v, rfl, hz⟩
        · rfl
        · exact hz
      | Some i inner =>
        rw [run] at h ⊢
        exact ih _ _ _ h
      | Many i inner =>
        rw [run] at h ⊢
        obtain ⟨s1, o1, hr, hsplit⟩ := andThen_split h
        rw [ih _ _ _ hr]
        rcases hsplit with ⟨er, rfl, rfl⟩ | ⟨v, rfl, hz⟩
        · rfl
        · cases v with
          | none => exact hz
          | some nid => exact ih _ _ _ hz
      | PositiveLookahead i inner =>
        rw [run] at h ⊢
        obtain ⟨s1, o1, hr, hsplit⟩ := andThen_split h
        rw [ih _ _ _ hr]
        rcases hsplit with ⟨er, rfl, rfl⟩ | ⟨v, rfl, hz⟩
        · rfl
        · exact hz
      | NegativeLookahead i inner =>
        rw [run] at h ⊢
        obtain ⟨s1, o1, hr, hsplit⟩ := andThen_split h
        rw [ih _ _ _ hr]
        rcases hsplit with ⟨er, rfl, rfl⟩ | ⟨v, rfl, hz⟩
        · rfl
        · exact hz
    | alts as pos =>
      cases as with
      | nil =>
        rw [run] at h ⊢
        exact h
      | cons a rest =>
        rw [run] at h ⊢
        obtain ⟨s1, o1, hr, hsplit⟩ := andThen_split h
        rw [ih _ _ _ hr]
        rcases hsplit with ⟨er, rfl, rfl⟩ | ⟨v, rfl, hz⟩
        · rfl
        · cases v with
          | some nid => exact hz
          | none => exact ih _ _ _ hz
    | seqList es st cur acc =>
      cases es with
      | nil =>
        rw [run] at h ⊢
        exact h
      | cons e rest =>
        rw [run] at h ⊢
        obtain ⟨s1, o1, hr, hsplit⟩ := andThen_split h
        rw [ih _ _ _ hr]
        rcases hsplit with ⟨er, rfl, rfl⟩ | ⟨v, rfl, hz⟩
        · rfl
        · cases v with
          | none => exact hz
          | some nid => exact ih _ _ _ hz
    | rep e st cur acc =>
      rw [run] at h ⊢
      obtain ⟨s1, o1, hr, hsplit⟩ := andThen_split h
      rw [ih _ _ _ hr]
      rcases hsplit with ⟨er, rfl, rfl⟩ | ⟨v, rfl, hz⟩
      · rfl
      · cases v with
        | none => exact hz
        | some nid =>
          have hz2 : (if (hget s1 nid).stop - (hget s1 nid).start = 0 then
                some ((alloc s1 acc st cur).1, Outcome.ok (some (alloc s1 acc st cur).2))
              else run R g text fuel
                (Call.rep e st (hget s1 nid).stop (acc ++ [Child.ref nid])) s1) =
              some z := hz
          show (if (hget s1 nid).stop - (hget s1 nid).start = 0 then
                some ((alloc s1 acc st cur).1, Outcome.ok (some (alloc s1 acc st cur).2))
              else run R g text (fuel + 1)
                (Call.rep e st (hget s1 nid).stop (acc ++ [Child.ref nid])) s1) =
              some z
          by_cases hzw : (hget s1 nid).stop - (hget s1 nid).start = 0
          · rw [if_pos hzw] at hz2 ⊢
            exact hz2
          · rw [if_neg hzw] at hz2 ⊢
            exact ih _ _ _ hz2

/-- A completed run stays completed under any larger fuel. -/
theorem run_mono_le (R : RegexM) (g : Grammar) (text : List Char)
    {fuel fuel2 : Nat} {c : Call} {s : ParseState} {z : ParseState × Outcome}
    (h12 : fuel ≤ fuel2) (h : run R g text fuel c s = some z) :
    run R g text fuel2 c s = some z := by
  obtain ⟨d, rfl⟩ := Nat.exists_eq_add_of_le h12
  clear h12
  induction d with
  | zero => exact h
  | succ d ihd =>
    have := run_mono R g text (fuel + d) c s z ihd
    rw [Nat.add_succ]
    exact this

/-!
## Termination for Name-free expressions
-/

theorem andThen_some_ok (s : ParseState) (v : Option Nat)
    (f : ParseState → Option Nat → MRes) : andThen (some (s, .ok v)) f = f s v := rfl

theorem andThen_some_err (s : ParseState) (ex : Err)
    (f : ParseState → Option Nat → MRes) :
    andThen (some (s, .err ex)) f = some (s, .err ex) := rfl

theorem esize_pos (e : Expr) : 1 ≤ esize e := by
  cases e <;> rw [esize] <;> omega

theorem esizeList_mem_le {e : Expr} {l : List Expr} (h : e ∈ l) :
    esize e ≤ esizeList l := by
  induction l with
  | nil => cases h
  | cons a rest ih =>
    rw [esizeList]
    rcases List.mem_cons.mp h with rfl | h2
    · omega
    · have := ih h2
      omega

theorem nameFreeList_mem {e : Expr} {l : List Expr} (hl : nameFreeList l = true)
    (h : e ∈ l) : nameFree e = true := by
  induction l with
  | nil => cases h
  | cons a rest ih =>
    rw [nameFreeList, Bool.and_eq_true] at hl
    rcases List.mem_cons.mp h with rfl | h2
    · exact hl.1
    · exact ih hl.2 h2

/-- The memoization wrapper terminates as soon as the variant matcher
does (or immediately, on a cache hit). -/
theorem expr_term_of_inner {R : RegexM} {g : Grammar} {text : List Char}
    {e : Expr} {p : Nat} {s : ParseState}
    (hin : ∃ f r, run R g text f (.exprInner e p) (logCall s (e.eid, p)) = some r) :
    ∃ f r, run R g text f (.expr e p) s = some r := by
  cases hc : cacheGet s (e.eid, p) with
  | some v => exact ⟨1, (s, .ok v), by rw [run, hc]⟩
  | none =>
    obtain ⟨f, ⟨s2, o2⟩, hr⟩ := hin
    cases o2 with
    | err ex =>
      exact ⟨f + 1, (s2, .err ex), by rw [run, hc, hr, andThen_some_err]⟩
    | ok v =>
      exact ⟨f + 1, (cacheSet s2 (e.eid, p) v, .ok v),
        by rw [run, hc, hr, andThen_some_ok]⟩

/-- The alternatives loop terminates when every listed item's `match`
terminates from every reachable state. -/
theorem alts_term {R : RegexM} {g : Grammar} {text : List Char} (hR : RegexWF R)
    (p : Nat) (hp : p ≤ text.length) :
    ∀ as : List Expr,
      (∀ e ∈ as, ∀ s, CacheInv text.length s →
        ∃ f r, run R g text f (.expr e p) s = some r) →
      ∀ s, CacheInv text.length s →
        ∃ f r, run R g text f (.alts as p) s = some r := by
  intro as
  induction as with
  | nil =>
    intro _ s _
    exact ⟨1, (s, .ok none), by rw [run]⟩
  | cons a rest ih =>
    intro helem s hInv
    obtain ⟨f1, ⟨s2, o2⟩, hr⟩ := helem a (by simp) s hInv
    cases o2 with
    | err ex =>
      exact ⟨f1 + 1, (s2, .err ex), by rw [run, hr, andThen_some_err]⟩
    | ok v =>
      cases v with
      | some nid =>
        exact ⟨f1 + 1, (s2, .ok (some nid)), by rw [run, hr, andThen_some_ok]⟩
      | none =>
        have hI2 : CacheInv text.length s2 :=
          (run_span g text hR f1 (.expr a p) s s2 _ hr (Nat.le_refl _) hp hInv).1
        obtain ⟨f2, r2, hr2⟩ :=
          ih (fun e he s3 h3 => helem e (by simp [he]) s3 h3) s2 hI2
        refine ⟨max f1 f2 + 1, r2, ?_⟩
        rw [run, run_mono_le R g text (Nat.le_max_left f1 f2) hr, andThen_some_ok]
        exact run_mono_le R g text (Nat.le_max_right f1 f2) hr2

/-- The sequence loop terminates when every listed item's `match`
terminates at every valid position. -/
theorem seq_term {R : RegexM} {g : Grammar} {text : List Char} (hR : RegexWF R) :
    ∀ es : List Expr,
      (∀ e ∈ es, ∀ q s, q ≤ text.length → CacheInv text.length s →
        ∃ f r, run R g text f (.expr e q) s = some r) →
      ∀ st cur acc s, cur ≤ text.length → CacheInv text.length s →
        ∃ f r, run R g text f (.seqList es st cur acc) s = some r := by
  intro es
  induction es with
  | nil =>
    intro _ st cur acc s _ _
    exact ⟨1, ((alloc s acc st cur).1, .ok (some (alloc s acc st cur).2)), by rw [run]⟩
  | cons e rest ih =>
    intro helem st cur acc s hcur hInv
    obtain ⟨f1, ⟨s2, o2⟩, hr⟩ := helem e (by simp) cur s hcur hInv
    cases o2 with
    | err ex =>
      exact ⟨f1 + 1, (s2, .err ex), by rw [run, hr, andThen_some_err]⟩
    | ok v =>
      cases v with
      | none =>
        exact ⟨f1 + 1, (s2, .ok none), by rw [run, hr, andThen_some_ok]⟩
      | some nid =>
        obtain ⟨hI2, _, hpost⟩ :=
          run_span g text hR f1 (.expr e cur) s s2 _ hr (Nat.le_refl _) hcur hInv
        obtain ⟨_, _, _, hstop⟩ := hpost nid rfl
        obtain ⟨f2, r2, hr2⟩ :=
          ih (fun e2 he2 => helem e2 (by simp [he2])) st (hget s2 nid).stop
            (acc ++ [.ref nid]) s2 hstop hI2
        refine ⟨max f1 f2 + 1, r2, ?_⟩
        rw [run, run_mono_le R g text (Nat.le_max_left f1 f2) hr, andThen_some_ok]
        exact run_mono_le R g text (Nat.le_max_right f1 f2) hr2

/-- The repetition loop (`Some`/`Many`) terminates when the inner
expression's `match` terminates at every valid position: each
continuing iteration strictly advances the position (the zero-width
guard breaks otherwise), bounded by the text length. -/
theorem rep_term {R : RegexM} {g : Grammar} {text : List Char} (hR : RegexWF R)
    (e : Expr)
    (helem : ∀ q s, q ≤ text.length → CacheInv text.length s →
      ∃ f r, run R g text f (.expr e q) s = some r) :
    ∀ d st cur acc s, text.length - cur ≤ d → cur ≤ text.length →
      CacheInv text.length s →
      ∃ f r, run R g text f (.rep e st cur acc) s = some r := by
  intro d
  induction d with
  | zero =>
    intro st cur acc s hd hcur hInv
    obtain ⟨f1, ⟨s2, o2⟩, hr⟩ := helem cur s hcur hInv
    cases o2 with
    | err ex =>
      exact ⟨f1 + 1, (s2, .err ex), by rw [run, hr, andThen_some_err]⟩
    | ok v =>
      cases v with
      | none =>
        exact ⟨f1 + 1, ((alloc s2 acc st cur).1, .ok (some (alloc s2 acc st cur).2)),
          by rw [run, hr, andThen_some_ok]⟩
      | some nid =>
        obtain ⟨hI2, _, hpost⟩ :=
          run_span g text hR f1 (.expr e cur) s s2 _ hr (Nat.le_refl _) hcur hInv
        obtain ⟨_, hstart, hle2, hstop⟩ := hpost nid rfl
        by_cases hzw : (hget s2 nid).stop - (hget s2 nid).start = 0
        · refine ⟨f1 + 1, ((alloc s2 acc st cur).1, .ok (some (alloc s2 acc st cur).2)), ?_⟩
          rw [run, hr, andThen_some_ok]
          show (if (hget s2 nid).stop - (hget s2 nid).start = 0 then
              some ((alloc s2 acc st cur).1, Outcome.ok (some (alloc s2 acc st cur).2))
            else run R g text f1
              (Call.rep e st (hget s2 nid).stop (acc ++ [Child.ref nid])) s2) =
            some ((alloc s2 acc st cur).1, Outcome.ok (some (alloc s2 acc st cur).2))
          rw [if_pos hzw]
        · exfalso
          have h1 : (hget s2 nid).start = cur := hstart
          have h2 : cur ≤ (hget s2 nid).stop := hle2
          have h3 : (hget s2 nid).stop ≤ text.length := hstop
          omega
  | succ d ihd =>
    intro st cur acc s hd hcur hInv
    obtain ⟨f1, ⟨s2, o2⟩, hr⟩ := helem cur s hcur hInv
    cases o2 with
    | err ex =>
      exact ⟨f1 + 1, (s2, .err ex), by rw [run, hr, andThen_some_err]⟩
    | ok v =>
      cases v with
      | none =>
        exact ⟨f1 + 1, ((alloc s2 acc st cur).1, .ok (some (alloc s2 acc st cur).2)),
          by rw [run, hr, andThen_some_ok]⟩
      | some nid =>
        obtain ⟨hI2, _, hpost⟩ :=
          run_span g text hR f1 (.expr e cur) s s2 _ hr (Nat.le_refl _) hcur hInv
        obtain ⟨_, hstart, hle2, hstop⟩ := hpost nid rfl
        by_cases hzw : (hget s2 nid).stop - (hget s2 nid).start = 0
        · refine ⟨f1 + 1, ((alloc s2 acc st cur).1, .ok (some (alloc s2 acc st cur).2)), ?_⟩
          rw [run, hr, andThen_some_ok]
          show (if (hget s2 nid).stop - (hget s2 nid).start = 0 then
              some ((alloc s2 acc st cur).1, Outcome.ok (some (alloc s2 acc st cur).2))
            else run R g text f1
              (Call.rep e st (hget s2 nid).stop (acc ++ [Child.ref nid])) s2) =
            some ((alloc s2 acc st cur).1, Outcome.ok (some (alloc s2 acc st cur).2))
          rw [if_pos hzw]
        · have h1 : (hget s2 nid).start = cur := hstart
          obtain ⟨f2, r2, hr2⟩ :=
            ihd st (hget s2 nid).stop (acc ++ [.ref nid]) s2 (by omega) hstop hI2
          refine ⟨max f1 f2 + 1, r2, ?_⟩
          rw [run, run_mono_le R g text (Nat.le_max_left f1 f2) hr, andThen_some_ok]
          show (if (hget s2 nid).stop - (hget s2 nid).start = 0 then
              some ((alloc s2 acc st cur).1, Outcome.ok (some (alloc s2 acc st cur).2))
            else run R g text (max f1 f2)
              (Call.rep e st (hget s2 nid).stop (acc ++ [Child.ref nid])) s2) =
            some r2
          rw [if_neg hzw]
          exact run_mono_le R g text (Nat.le_max_right f1 f2) hr2

/-- Termination for Name-free expressions: the `match` of any
expression containing no rule/terminal reference finishes on every
text, valid position and invariant-satisfying state. -/
theorem nameFree_terminates {R : RegexM} {g : Grammar} {text : List Char}
    (hR : RegexWF R) :
    ∀ n (e : Expr), esize e ≤ n → nameFree e = true →
      ∀ p s, p ≤ text.length → CacheInv text.length s →
        ∃ f r, run R g text f (.expr e p) s = some r := by
  intro n
  induction n with
  | zero =>
    intro e he
    exact absurd he (by have := esize_pos e; omega)
  | succ n ihn =>
    intro e he hnf p s hp hInv
    cases e with
    | Literal i lit =>
      apply expr_term_of_inner
      cases hl : lit_match lit text p with
      | some e1 => exact ⟨1, _, by rw [run, hl]⟩
      | none => exact ⟨1, _, by rw [run, hl]⟩
    | RegEx i pat =>
      apply expr_term_of_inner
      cases hl : R pat text p with
      | some e1 => exact ⟨1, _, by rw [run, hl]⟩
      | none => exact ⟨1, _, by rw [run, hl]⟩
    | Name i nm =>
      rw [nameFree] at hnf
      cases hnf
    | Alts i as =>
      apply expr_term_of_inner
      rw [esize] at he
      rw [nameFree] at hnf
      have helem : ∀ e2 ∈ as, ∀ s2, CacheInv text.length s2 →
          ∃ f r, run R g text f (.expr e2 p) s2 = some r := by
        intro e2 he2 s2 hI2
        exact ihn e2 (by have := esizeList_mem_le he2; omega)
          (nameFreeList_mem hnf he2) p s2 hp hI2
      obtain ⟨f, r, hr⟩ :=
        alts_term hR p hp as helem (logCall s ((Expr.Alts i as).eid, p))
          (cacheInv_logCall hInv _)
      exact ⟨f + 1, r, by rw [run]; exact hr⟩
    | Sequence i es =>
      apply expr_term_of_inner
      rw [esize] at he
      rw [nameFree] at hnf
      have helem : ∀ e2 ∈ es, ∀ q s2, q ≤ text.length → CacheInv text.length s2 →
          ∃ f r, run R g text f (.expr e2 q) s2 = some r := by
        intro e2 he2 q s2 hq hI2
        exact ihn e2 (by have := esizeList_mem_le he2; omega)
          (nameFreeList_mem hnf he2) q s2 hq hI2
      obtain ⟨f, r, hr⟩ :=
        seq_term hR es helem p p [] (logCall s ((Expr.Sequence i es).eid, p)) hp
          (cacheInv_logCall hInv _)
      exact ⟨f + 1, r, by rw [run]; exact hr⟩
    | Optional i inner =>
      apply expr_term_of_inner
      rw [esize] at he
      rw [nameFree] at hnf
      obtain ⟨f1, ⟨s2, o2⟩, hr⟩ :=
        ihn inner (by omega) hnf p (logCall s ((Expr.Optional i inner).eid, p)) hp
          (cacheInv_logCall hInv _)
      cases o2 with
      | err ex => exact ⟨f1 + 1, _, by rw [run, hr, andThen_some_err]⟩
      | ok v =>
        cases v with
        | some nid =>
          exact ⟨f1 + 1, (s2, .ok (some nid)), by rw [run, hr, andThen_some_ok]⟩
        | none =>
          exact ⟨f1 + 1, ((alloc s2 [] p p).1, .ok (some (alloc s2 [] p p).2)),
            by rw [run, hr, andThen_some_ok]⟩
    | Some i inner =>
      apply expr_term_of_inner
      rw [esize] at he
      rw [nameFree] at hnf
      have helem : ∀ q s2, q ≤ text.length → CacheInv text.length s2 →
          ∃ f r, run R g text f (.expr inner q) s2 = some r :=
        fun q s2 hq hI2 => ihn inner (by omega) hnf q s2 hq hI2
      obtain ⟨f, r, hr⟩ :=
        rep_term hR inner helem text.length p p []
          (logCall s ((Expr.Some i inner).eid, p)) (by omega) hp
          (cacheInv_logCall hInv _)
      exact ⟨f + 1, r, by rw [run]; exact hr⟩
    | Many i inner =>
      apply expr_term_of_inner
      rw [esize] at he
      rw [nameFree] at hnf
      have helem : ∀ q s2, q ≤ text.length → CacheInv text.length s2 →
          ∃ f r, run R g text f (.expr inner q) s2 = some r :=
        fun q s2 hq hI2 => ihn inner (by omega) hnf q s2 hq hI2
      obtain ⟨f1, ⟨s2, o2⟩, hr⟩ :=
        helem p (logCall s ((Expr.Many i inner).eid, p)) hp (cacheInv_logCall hInv _)
      cases o2 with
      | err ex => exact ⟨f1 + 1, _, by rw [run, hr, andThen_some_err]⟩
      | ok v =>
        cases v with
        | none => exact ⟨f1 + 1, (s2, .ok none), by rw [run, hr, andThen_some_ok]⟩
        | some nid =>
          obtain ⟨hI2, _, hpost⟩ :=
            run_span g text hR f1 (.expr inner p)
              (logCall s ((Expr.Many i inner).eid, p)) s2 _ hr (Nat.le_refl _) hp
              (cacheInv_logCall hInv _)
          obtain ⟨_, _, _, hstop⟩ := hpost nid rfl
          obtain ⟨f2, r2, hr2⟩ :=
            rep_term hR inner helem text.length p (hget s2 nid).stop [.ref nid] s2
              (by omega) hstop hI2
          refine ⟨max f1 f2 + 1, r2, ?_⟩
          rw [run, run_mono_le R g text (Nat.le_max_left f1 f2) hr, andThen_some_ok]
          exact run_mono_le R g text (Nat.le_max_right f1 f2) hr2
    | PositiveLookahead i inner =>
      apply expr_term_of_inner
      rw [esize] at he
      rw [nameFree] at hnf
      obtain ⟨f1, ⟨s2, o2⟩, hr⟩ :=
        ihn inner (by omega) hnf p (logCall s ((Expr.PositiveLookahead i inner).eid, p))
          hp (cacheInv_logCall hInv _)
      cases o2 with
      | err ex => exact ⟨f1 + 1, _, by rw [run, hr, andThen_some_err]⟩
      | ok v =>
        cases v with
        | some nid =>
          exact ⟨f1 + 1, ((alloc s2 [] p p).1, .ok (some (alloc s2 [] p p).2)),
            by rw [run, hr, andThen_some_ok]⟩
        | none => exact ⟨f1 + 1, (s2, .ok none), by rw [run, hr, andThen_some_ok]⟩
    | NegativeLookahead i inner =>
      apply expr_term_of_inner
      rw [esize] at he
      rw [nameFree] at hnf
      obtain ⟨f1, ⟨s2, o2⟩, hr⟩ :=
        ihn inner (by omega) hnf p (logCall s ((Expr.NegativeLookahead i inner).eid, p))
          hp (cacheInv_logCall hInv _)
      cases o2 with
      | err ex => exact ⟨f1 + 1, _, by rw [run, hr, andThen_some_err]⟩
      | ok v =>
        cases v with
        | some nid => exact ⟨f1 + 1, (s2, .ok none), by rw [run, hr, andThen_some_ok]⟩
        | none =>
          exact ⟨f1 + 1, ((alloc s2 [] p p).1, .ok (some (alloc s2 [] p p).2)),
            by rw [run, hr, andThen_some_ok]⟩

/-!
## Left recursion diverges: the memoization writes its entry only
after the variant matcher returns, so a rule whose body re-enters
itself at the same position loops forever.
-/

/-- Every call on the cycle of the left-recursive grammar, and on the
entry path of `ZeroOrMore(Name "a")`, exhausts any fuel when none of
the keys on the cycle is memoized. -/
theorem loopGrammar_stuck :
    ∀ fuel (s : ParseState),
      cacheGet s (1, 0) = none → cacheGet s (2, 0) = none →
      cacheGet s (3, 0) = none → cacheGet s (4, 0) = none →
      cacheGet s (5, 0) = none →
      run R0 loopGrammar ['x'] fuel (.rule loopRule 0) s = none
      ∧ run R0 loopGrammar ['x'] fuel (.ruleInner loopRule 0) s = none
      ∧ run R0 loopGrammar ['x'] fuel (.expr loopRhs 0) s = none
      ∧ run R0 loopGrammar ['x'] fuel (.exprInner (.Alts 2 [.Name 3 "a"]) 0) s = none
      ∧ run R0 loopGrammar ['x'] fuel (.alts [.Name 3 "a"] 0) s = none
      ∧ run R0 loopGrammar ['x'] fuel (.expr (.Name 3 "a") 0) s = none
      ∧ run R0 loopGrammar ['x'] fuel (.exprInner (.Name 3 "a") 0) s = none
      ∧ run R0 loopGrammar ['x'] fuel (.expr (.Some 5 (.Name 4 "a")) 0) s = none
      ∧ run R0 loopGrammar ['x'] fuel (.exprInner (.Some 5 (.Name 4 "a")) 0) s = none
      ∧ run R0 loopGrammar ['x'] fuel (.rep (.Name 4 "a") 0 0 []) s = none
      ∧ run R0 loopGrammar ['x'] fuel (.expr (.Name 4 "a") 0) s = none
      ∧ run R0 loopGrammar ['x'] fuel (.exprInner (.Name 4 "a") 0) s = none := by
  intro fuel
  induction fuel with
  | zero =>
    intro s _ _ _ _ _
    exact ⟨rfl, rfl, rfl, rfl, rfl, rfl, rfl, rfl, rfl, rfl, rfl, rfl⟩
  | succ fuel ih =>
    intro s h1 h2 h3 h4 h5
    refine ⟨?_, ?_, ?_, ?_, ?_, ?_, ?_, ?_, ?_, ?_, ?_, ?_⟩
    · rw [run]
      have hk : cacheGet s (loopRule.id, 0) = none := h1
      rw [hk]
      have hc : run R0 loopGrammar ['x'] fuel (.ruleInner loopRule 0)
          (logCall s (loopRule.id, 0)) = none :=
        (ih (logCall s (loopRule.id, 0)) h1 h2 h3 h4 h5).2.1
      rw [hc]
      rfl
    · rw [run]
      have hc : run R0 loopGrammar ['x'] fuel (.expr loopRule.rhs 0) s = none :=
        (ih s h1 h2 h3 h4 h5).2.2.1
      rw [hc]
      rfl
    · rw [run]
      have hk : cacheGet s (loopRhs.eid, 0) = none := h2
      rw [hk]
      have hc : run R0 loopGrammar ['x'] fuel (.exprInner loopRhs 0)
          (logCall s (loopRhs.eid, 0)) = none :=
        (ih (logCall s (loopRhs.eid, 0)) h1 h2 h3 h4 h5).2.2.2.1
      rw [hc]
      rfl
    · rw [run]
      exact (ih s h1 h2 h3 h4 h5).2.2.2.2.1
    · rw [run]
      have hc : run R0 loopGrammar ['x'] fuel (.expr (.Name 3 "a") 0) s = none :=
        (ih s h1 h2 h3 h4 h5).2.2.2.2.2.1
      rw [hc]
      rfl
    · rw [run]
      have hk : cacheGet s ((Expr.Name 3 "a").eid, 0) = none := h3
      rw [hk]
      have hc : run R0 loopGrammar ['x'] fuel (.exprInner (.Name 3 "a") 0)
          (logCall s ((Expr.Name 3 "a").eid, 0)) = none :=
        (ih (logCall s ((Expr.Name 3 "a").eid, 0)) h1 h2 h3 h4 h5).2.2.2.2.2.2.1
      rw [hc]
      rfl
    · rw [run]
      have hg : loopGrammar.getItem "a" = .ok (.rule loopRule) := rfl
      rw [hg]
      exact (ih s h1 h2 h3 h4 h5).1
    · rw [run]
      have hk : cacheGet s ((Expr.Some 5 (.Name 4 "a")).eid, 0) = none := h5
      rw [hk]
      have hc : run R0 loopGrammar ['x'] fuel (.exprInner (.Some 5 (.Name 4 "a")) 0)
          (logCall s ((Expr.Some 5 (.Name 4 "a")).eid, 0)) = none :=
        (ih (logCall s ((Expr.Some 5 (.Name 4 "a")).eid, 0))
          h1 h2 h3 h4 h5).2.2.2.2.2.2.2.2.1
      rw [hc]
      rfl
    · rw [run]
      exact (ih s h1 h2 h3 h4 h5).2.2.2.2.2.2.2.2.2.1
    · rw [run]
      have hc : run R0 loopGrammar ['x'] fuel (.expr (.Name 4 "a") 0) s = none :=
        (ih s h1 h2 h3 h4 h5).2.2.2.2.2.2.2.2.2.2.1
      rw [hc]
      rfl
    · rw [run]
      have hk : cacheGet s ((Expr.Name 4 "a").eid, 0) = none := h4
      rw [hk]
      have hc : run R0 loopGrammar ['x'] fuel (.exprInner (.Name 4 "a") 0)
          (logCall s ((Expr.Name 4 "a").eid, 0)) = none :=
        (ih (logCall s ((Expr.Name 4 "a").eid, 0)) h1 h2 h3 h4 h5).2.2.2.2.2.2.2.2.2.2.2
      rw [hc]
      rfl
    · rw [run]
      have hg : loopGrammar.getItem "a" = .ok (.rule loopRule) := rfl
      rw [hg]
      exact (ih s h1 h2 h3 h4 h5).1

/-!
## Claim C3 — zero-width guard and termination
-/

/-- C3 (amended).  The repetition loop shared by `Some` (ZeroOrMore)
and `Many` (OneOrMore) stops exactly when the inner expression fails
to match or returns a zero-width result, and continues from the inner
result's end otherwise; consequently, for every inner expression free
of rule/terminal references (`Name`), `Some` and `Many` terminate on
every text, valid position and invariant-satisfying state — in
particular `ZeroOrMore(Optional(Literal "x"))` terminates on every
input. -/
theorem c3_zero_width_guard (R : RegexM) (g : Grammar) (text : List Char) :
    (RegexWF R → ∀ (e : Expr), nameFree e = true → ∀ p s, p ≤ text.length →
      CacheInv text.length s → ∃ f r, run R g text f (.expr e p) s = some r)
    ∧ (∀ fuel (e : Expr) st cur acc s s1,
      run R g text fuel (.expr e cur) s = some (s1, .ok none) →
      run R g text (fuel + 1) (.rep e st cur acc) s =
        some ((alloc s1 acc st cur).1, .ok (some (alloc s1 acc st cur).2)))
    ∧ (∀ fuel (e : Expr) st cur acc s s1 nid,
      run R g text fuel (.expr e cur) s = some (s1, .ok (some nid)) →
      (hget s1 nid).stop - (hget s1 nid).start = 0 →
      run R g text (fuel + 1) (.rep e st cur acc) s =
        some ((alloc s1 acc st cur).1, .ok (some (alloc s1 acc st cur).2)))
    ∧ (∀ fuel (e : Expr) st cur acc s s1 nid,
      run R g text fuel (.expr e cur) s = some (s1, .ok (some nid)) →
      (hget s1 nid).stop - (hget s1 nid).start ≠ 0 →
      run R g text (fuel + 1) (.rep e st cur acc) s =
        run R g text fuel (.rep e st (hget s1 nid).stop (acc ++ [.ref nid])) s1)
    ∧ (RegexWF R → ∀ p s, p ≤ text.length → CacheInv text.length s →
      ∃ f r, run R g text f (.expr zwSome p) s = some r) := by
  refine ⟨?_, ?_, ?_, ?_, ?_⟩
  · intro hR e hnf p s hp hInv
    exact nameFree_terminates hR (esize e) e (Nat.le_refl _) hnf p s hp hInv
  · intro fuel e st cur acc s s1 h
    rw [run, h, andThen_some_ok]
  · intro fuel e st cur acc s s1 nid h hzw
    rw [run, h, andThen_some_ok]
    show (if (hget s1 nid).stop - (hget s1 nid).start = 0 then
        some ((alloc s1 acc st cur).1, Outcome.ok (some (alloc s1 acc st cur).2))
      else run R g text fuel
        (Call.rep e st (hget s1 nid).stop (acc ++ [Child.ref nid])) s1) =
      some ((alloc s1 acc st cur).1, Outcome.ok (some (alloc s1 acc st cur).2))
    rw [if_pos hzw]
  · intro fuel e st cur acc s s1 nid h hzw
    rw [run, h, andThen_some_ok]
    show (if (hget s1 nid).stop - (hget s1 nid).start = 0 then
        some ((alloc s1 acc st cur).1, Outcome.ok (some (alloc s1 acc st cur).2))
      else run R g text fuel
        (Call.rep e st (hget s1 nid).stop (acc ++ [Child.ref nid])) s1) =
      run R g text fuel (Call.rep e st (hget s1 nid).stop (acc ++ [Child.ref nid])) s1
    rw [if_neg hzw]
  · intro hR p s hp hInv
    exact nameFree_terminates hR (esize zwSome) zwSome (Nat.le_refl _) (by decide)
      p s hp hInv

/-- Witness for C3: on text `"yy"` the spec's example
`ZeroOrMore(Optional(Literal "x"))` terminates, and the zero-width
guard stops the loop after the inner `Optional` returns an empty-span
node at position 0. -/
theorem c3_zero_width_guard_witness :
    (∃ f r, run R0 g0 ['y', 'y'] f (.expr zwSome 0) emptyState = some r)
    ∧ (run R0 g0 ['y', 'y'] 6 (.expr (.Optional 21 (.Literal 22 ['x'])) 0) emptyState =
        some (⟨[⟨[], 0, 0, ""⟩], [((21, 0), some 0), ((22, 0), none)],
          [(21, 0), (22, 0)]⟩, .ok (some 0))
      ∧ run R0 g0 ['y', 'y'] 7 (.rep (.Optional 21 (.Literal 22 ['x'])) 0 0 []) emptyState =
        some ((alloc ⟨[⟨[], 0, 0, ""⟩], [((21, 0), some 0), ((22, 0), none)],
            [(21, 0), (22, 0)]⟩ [] 0 0).1,
          .ok (some (alloc ⟨[⟨[], 0, 0, ""⟩], [((21, 0), some 0), ((22, 0), none)],
            [(21, 0), (22, 0)]⟩ [] 0 0).2))) :=
  ⟨(c3_zero_width_guard R0 g0 ['y', 'y']).2.2.2.2 (fun _ _ _ _ h => by cases h) 0
      emptyState (by decide) (cacheInv_empty _),
   ⟨by rfl,
    (c3_zero_width_guard R0 g0 ['y', 'y']).2.2.1 6 (.Optional 21 (.Literal 22 ['x']))
      0 0 [] emptyState _ 0 (by rfl) (by rfl)⟩⟩

/-- C3 counterexample to the claim as stated: not every inner
expression gives a terminating `ZeroOrMore`.  With the left-recursive
rule `a <- a`, the matcher of `ZeroOrMore(Name "a")` on text `"x"`
exhausts every fuel bound — the engine's memoization writes its cache
entry only after `_match` returns, so the reference re-enters itself
at the same position forever (Python's `RecursionError`). -/
theorem c3_zero_width_guard_counterexample : someNameLoopDiverges := by
  intro fuel
  exact (loopGrammar_stuck fuel emptyState rfl rfl rfl rfl rfl).2.2.2.2.2.2.2.1

end Simon
